import Mathlib

/-!
Verification of the retrieval-augmented response core of the
Academy-of-knowledge VK bot (files `src/ai/rag_handler.py` and
`src/ai/rag_singleton.py`).

Texts are modelled as `List Char`.  Python's `str.lower` is modelled for the
ASCII and Cyrillic ranges (the alphabets occurring in the knowledge base and
in all queries of interest); all other characters are left unchanged.
Python floats are modelled by exact rationals `ℚ`: every claim under study
concerns branch selection and list structure, not rounding.  The embedding
encoder, the cosine similarity and the Gaussian jitter of
`_get_relevant_documents` are opaque external capabilities and enter as
function parameters.
-/

namespace Rag

/-- Case-mapping table of `str.lower` restricted to ASCII `A`-`Z` and the
Cyrillic letters `А`-`Я` and `Ё`. -/
def lowerTable : List (Char × Char) :=
  [('A', 'a'), ('B', 'b'), ('C', 'c'), ('D', 'd'), ('E', 'e'), ('F', 'f'),
   ('G', 'g'), ('H', 'h'), ('I', 'i'), ('J', 'j'), ('K', 'k'), ('L', 'l'),
   ('M', 'm'), ('N', 'n'), ('O', 'o'), ('P', 'p'), ('Q', 'q'), ('R', 'r'),
   ('S', 's'), ('T', 't'), ('U', 'u'), ('V', 'v'), ('W', 'w'), ('X', 'x'),
   ('Y', 'y'), ('Z', 'z'),
   ('А', 'а'), ('Б', 'б'), ('В', 'в'), ('Г', 'г'), ('Д', 'д'), ('Е', 'е'),
   ('Ж', 'ж'), ('З', 'з'), ('И', 'и'), ('Й', 'й'), ('К', 'к'), ('Л', 'л'),
   ('М', 'м'), ('Н', 'н'), ('О', 'о'), ('П', 'п'), ('Р', 'р'), ('С', 'с'),
   ('Т', 'т'), ('У', 'у'), ('Ф', 'ф'), ('Х', 'х'), ('Ц', 'ц'), ('Ч', 'ч'),
   ('Ш', 'ш'), ('Щ', 'щ'), ('Ъ', 'ъ'), ('Ы', 'ы'), ('Ь', 'ь'), ('Э', 'э'),
   ('Ю', 'ю'), ('Я', 'я'), ('Ё', 'ё')]

/-- First-match association lookup in a character table. -/
def tblLookup : List (Char × Char) → Char → Option Char
  | [], _ => none
  | (k, v) :: t, c => if c = k then some v else tblLookup t c

/-- `str.lower` on one character (ASCII + Cyrillic; identity elsewhere). -/
def lowerChar (c : Char) : Char := (tblLookup lowerTable c).getD c

/-- `text.lower()` on a character list. -/
def lowerPy (l : List Char) : List Char := l.map lowerChar

/-- The regex class `\s` (ASCII core of Python's whitespace class). -/
def isSpaceChar (c : Char) : Bool :=
  decide (c = ' ') || decide (c = '\t') || decide (c = '\n') ||
  decide (c = '\r') || decide (c = '\x0b') || decide (c = '\x0c')

/-- The regex class `\w` (letters modelled over ASCII + Cyrillic, digits,
underscore). -/
def isWordChar (c : Char) : Bool :=
  decide ('a' ≤ c ∧ c ≤ 'z') || decide ('A' ≤ c ∧ c ≤ 'Z') ||
  decide ('0' ≤ c ∧ c ≤ '9') || decide (c = '_') ||
  decide ('а' ≤ c ∧ c ≤ 'я') || decide ('А' ≤ c ∧ c ≤ 'Я') ||
  decide (c = 'ё') || decide (c = 'Ё')

/-- Characters surviving `re.sub(r'[^\w\s]', '', text)`. -/
def keepChar (c : Char) : Bool := isWordChar c || isSpaceChar c

/-- `re.sub(r'\s+', ' ', text)`: replace each maximal whitespace run by a
single space.  The boolean flag records whether the previous character
belonged to a whitespace run. -/
def collapseAux : Bool → List Char → List Char
  | _, [] => []
  | prevSpace, c :: cs =>
    if isSpaceChar c then
      if prevSpace then collapseAux true cs else ' ' :: collapseAux true cs
    else c :: collapseAux false cs

/-- Remove trailing whitespace characters. -/
def dropTrailingSpaces : List Char → List Char
  | [] => []
  | c :: cs =>
    match dropTrailingSpaces cs with
    | [] => if isSpaceChar c then [] else [c]
    | r => c :: r

/-- Python `str.strip()`. -/
def stripChars (l : List Char) : List Char :=
  dropTrailingSpaces (l.dropWhile isSpaceChar)

/-- `RAGHandler._normalize_text` (src/ai/rag_handler.py:536-555): lowercase,
drop characters outside `\w`/`\s`, collapse whitespace runs to one space,
strip. -/
def normalizeText (l : List Char) : List Char :=
  stripChars (collapseAux false ((l.map lowerChar).filter keepChar))

/-- Does the list start with a non-whitespace character (or is empty)? -/
def noSpaceHead : List Char → Bool
  | [] => true
  | c :: _ => !isSpaceChar c

/-- No two adjacent whitespace characters. -/
def noAdjSp : List Char → Bool
  | [] => true
  | [_] => true
  | a :: b :: t => (!(isSpaceChar a && isSpaceChar b)) && noAdjSp (b :: t)

theorem tblLookup_mem {t : List (Char × Char)} {c v : Char}
    (h : tblLookup t c = some v) : (c, v) ∈ t := by
  induction t with
  | nil => simp [tblLookup] at h
  | cons p t ih =>
    obtain ⟨k, w⟩ := p
    by_cases hc : c = k
    · subst hc
      simp [tblLookup] at h
      simp [h]
    · simp [tblLookup, hc] at h
      exact List.mem_cons_of_mem _ (ih h)

theorem lowerTable_val_not_key :
    ∀ p ∈ lowerTable, tblLookup lowerTable p.2 = none := by decide

theorem lowerChar_idem (c : Char) : lowerChar (lowerChar c) = lowerChar c := by
  unfold lowerChar
  cases h : tblLookup lowerTable c with
  | none => simp [h]
  | some v =>
    have hv := lowerTable_val_not_key (c, v) (tblLookup_mem h)
    simp [h, hv]

theorem mem_collapseAux {c : Char} :
    ∀ (b : Bool) (l : List Char), c ∈ collapseAux b l → c ∈ l ∨ c = ' ' := by
  intro b l
  induction l generalizing b with
  | nil => simp [collapseAux]
  | cons a t ih =>
    intro h
    by_cases ha : isSpaceChar a = true
    · cases b with
      | true =>
        simp only [collapseAux, ha, if_pos] at h
        rcases ih true h with h' | h'
        · exact Or.inl (List.mem_cons_of_mem _ h')
        · exact Or.inr h'
      | false =>
        simp only [collapseAux, ha, if_pos] at h
        rcases List.mem_cons.mp h with h' | h'
        · exact Or.inr h'
        · rcases ih true h' with h'' | h''
          · exact Or.inl (List.mem_cons_of_mem _ h'')
          · exact Or.inr h''
    · simp only [collapseAux, ha] at h
      simp only [Bool.false_eq_true, if_false] at h
      rcases List.mem_cons.mp h with h' | h'
      · exact Or.inl (h' ▸ List.mem_cons_self _ _)
      · rcases ih false h' with h'' | h''
        · exact Or.inl (List.mem_cons_of_mem _ h'')
        · exact Or.inr h''

theorem mem_dropTrailingSpaces {c : Char} :
    ∀ l : List Char, c ∈ dropTrailingSpaces l → c ∈ l := by
  intro l
  induction l with
  | nil => simp [dropTrailingSpaces]
  | cons a t ih =>
    intro h
    rw [dropTrailingSpaces] at h
    cases hr : dropTrailingSpaces t with
    | nil =>
      rw [hr] at h
      by_cases ha : isSpaceChar a = true
      · simp [ha] at h
      · simp [ha] at h
        simp [h]
    | cons x xs =>
      rw [hr] at h
      rcases List.mem_cons.mp h with h' | h'
      · simp [h']
      · exact List.mem_cons_of_mem _ (ih (hr ▸ h'))

theorem mem_stripChars {c : Char} {l : List Char} (h : c ∈ stripChars l) :
    c ∈ l :=
  (List.dropWhile_sublist isSpaceChar).mem (mem_dropTrailingSpaces _ h)

theorem collapseAux_space_eq {c : Char} :
    ∀ (b : Bool) (l : List Char), c ∈ collapseAux b l →
      isSpaceChar c = true → c = ' ' := by
  intro b l
  induction l generalizing b with
  | nil => simp [collapseAux]
  | cons a t ih =>
    intro h hc
    by_cases ha : isSpaceChar a = true
    · cases b with
      | true =>
        simp only [collapseAux, ha, if_pos] at h
        exact ih true h hc
      | false =>
        simp only [collapseAux, ha, if_pos] at h
        rcases List.mem_cons.mp h with h' | h'
        · exact h'
        · exact ih true h' hc
    · simp only [collapseAux, ha, Bool.false_eq_true, if_false] at h
      rcases List.mem_cons.mp h with h' | h'
      · exact absurd (h' ▸ hc) (by simpa using ha)
      · exact ih false h' hc

theorem noSpaceHead_collapseAux_true :
    ∀ l : List Char, noSpaceHead (collapseAux true l) = true := by
  intro l
  induction l with
  | nil => simp [collapseAux, noSpaceHead]
  | cons a t ih =>
    by_cases ha : isSpaceChar a = true
    · simpa [collapseAux, ha] using ih
    · simp [collapseAux, ha, noSpaceHead]

theorem noAdjSp_tail {a : Char} {t : List Char} (h : noAdjSp (a :: t) = true) :
    noAdjSp t = true := by
  cases t with
  | nil => simp [noAdjSp]
  | cons b u => exact (Bool.and_eq_true_iff.mp h).2

theorem noAdjSp_cons {a : Char} {t : List Char} (ht : noAdjSp t = true)
    (h : isSpaceChar a = false ∨ noSpaceHead t = true) :
    noAdjSp (a :: t) = true := by
  cases t with
  | nil => simp [noAdjSp]
  | cons b u =>
    rw [noAdjSp]
    rw [Bool.and_eq_true_iff]
    refine ⟨?_, ht⟩
    rcases h with h | h
    · simp [h]
    · simp [noSpaceHead] at h
      simp [h]

theorem noAdjSp_collapseAux : ∀ (b : Bool) (l : List Char),
    noAdjSp (collapseAux b l) = true := by
  intro b l
  induction l generalizing b with
  | nil => simp [collapseAux, noAdjSp]
  | cons a t ih =>
    by_cases ha : isSpaceChar a = true
    · cases b with
      | true => simpa [collapseAux, ha] using ih true
      | false =>
        simp only [collapseAux, ha, if_pos]
        exact noAdjSp_cons (ih true) (Or.inr (noSpaceHead_collapseAux_true t))
    · simp only [collapseAux, ha, Bool.false_eq_true, if_false]
      exact noAdjSp_cons (ih false) (Or.inl (by simpa using ha))

theorem noAdjSp_dropWhile {l : List Char} (h : noAdjSp l = true) :
    noAdjSp (l.dropWhile isSpaceChar) = true := by
  induction l with
  | nil => simpa using h
  | cons a t ih =>
    rw [List.dropWhile]
    by_cases ha : isSpaceChar a = true
    · simp only [ha, if_pos]
      exact ih (noAdjSp_tail h)
    · simp only [ha]
      simpa using h

theorem dropTrailingSpaces_shape (a : Char) (t : List Char) :
    dropTrailingSpaces (a :: t) = [] ∨
      ∃ r, dropTrailingSpaces (a :: t) = a :: r := by
  rw [dropTrailingSpaces]
  cases hr : dropTrailingSpaces t with
  | nil =>
    by_cases ha : isSpaceChar a = true
    · simp [ha]
    · simp [ha]
  | cons x xs => exact Or.inr ⟨x :: xs, rfl⟩

theorem noAdjSp_dropTrailingSpaces {l : List Char} (h : noAdjSp l = true) :
    noAdjSp (dropTrailingSpaces l) = true := by
  induction l with
  | nil => simpa [dropTrailingSpaces] using h
  | cons a t ih =>
    rw [dropTrailingSpaces]
    cases hr : dropTrailingSpaces t with
    | nil =>
      by_cases ha : isSpaceChar a = true
      · simp [ha, noAdjSp]
      · simp [ha, noAdjSp]
    | cons x xs =>
      have ht : noAdjSp (x :: xs) = true := hr ▸ ih (noAdjSp_tail h)
      refine noAdjSp_cons ht ?_
      cases t with
      | nil => simp [dropTrailingSpaces] at hr
      | cons b u =>
        rcases dropTrailingSpaces_shape b u with hsh | ⟨r, hsh⟩
        · rw [hsh] at hr; exact absurd hr (by simp)
        · rw [hsh] at hr
          have hbx : b = x := (List.cons.injEq _ _ _ _ ▸ hr).1
          by_cases ha : isSpaceChar a = true
          · right
            have hpair := (Bool.and_eq_true_iff.mp h).1
            simp only [Bool.not_eq_true', Bool.and_eq_false_iff] at hpair
            rcases hpair with hpa | hpb
            · exact absurd ha (by simp [hpa])
            · simp [noSpaceHead, hbx ▸ hpb]
          · exact Or.inl (by simpa using ha)

theorem spacesSp_collapse_strip {c : Char} {l : List Char}
    (h : c ∈ stripChars (collapseAux false l)) (hc : isSpaceChar c = true) :
    c = ' ' :=
  collapseAux_space_eq false l (mem_stripChars h) hc

theorem collapseAux_eq_self : ∀ l : List Char,
    (∀ c ∈ l, isSpaceChar c = true → c = ' ') → noAdjSp l = true →
    ∀ b : Bool, (b = true → noSpaceHead l = true) → collapseAux b l = l := by
  intro l
  induction l with
  | nil => intro _ _ b _; simp [collapseAux]
  | cons a t ih =>
    intro hsp hadj b hb
    by_cases ha : isSpaceChar a = true
    · cases b with
      | true =>
        have := hb rfl
        simp [noSpaceHead, ha] at this
      | false =>
        simp only [collapseAux, ha, if_pos]
        have ha' : a = ' ' := hsp a (List.mem_cons_self _ _) ha
        have hhead : noSpaceHead t = true := by
          cases t with
          | nil => simp [noSpaceHead]
          | cons b' u =>
            have hpair := (Bool.and_eq_true_iff.mp hadj).1
            simp only [Bool.not_eq_true', Bool.and_eq_false_iff] at hpair
            rcases hpair with hpa | hpb
            · exact absurd ha (by simp [hpa])
            · simp [noSpaceHead, hpb]
        rw [ih (fun c hc => hsp c (List.mem_cons_of_mem _ hc)) (noAdjSp_tail hadj)
              true (fun _ => hhead), ha']
        simp
    · simp only [collapseAux, ha, Bool.false_eq_true, if_false]
      rw [ih (fun c hc => hsp c (List.mem_cons_of_mem _ hc)) (noAdjSp_tail hadj)
            false (by simp)]

theorem dropWhile_eq_self_of_noSpaceHead {l : List Char}
    (h : noSpaceHead l = true) : l.dropWhile isSpaceChar = l := by
  cases l with
  | nil => rfl
  | cons a t =>
    simp only [noSpaceHead, Bool.not_eq_true'] at h
    simp [List.dropWhile, h]

theorem noSpaceHead_dropWhile (l : List Char) :
    noSpaceHead (l.dropWhile isSpaceChar) = true := by
  induction l with
  | nil => simp [noSpaceHead]
  | cons a t ih =>
    rw [List.dropWhile]
    by_cases ha : isSpaceChar a = true
    · simpa [ha] using ih
    · simp [ha, noSpaceHead]

theorem noSpaceHead_dropTrailingSpaces {l : List Char}
    (h : noSpaceHead l = true) : noSpaceHead (dropTrailingSpaces l) = true := by
  cases l with
  | nil => simp [dropTrailingSpaces, noSpaceHead]
  | cons a t =>
    rcases dropTrailingSpaces_shape a t with hsh | ⟨r, hsh⟩
    · simp [hsh, noSpaceHead]
    · rw [hsh]
      simpa [noSpaceHead] using h

theorem dropTrailingSpaces_idem : ∀ l : List Char,
    dropTrailingSpaces (dropTrailingSpaces l) = dropTrailingSpaces l := by
  intro l
  induction l with
  | nil => rfl
  | cons a t ih =>
    rw [dropTrailingSpaces]
    cases hr : dropTrailingSpaces t with
    | nil =>
      by_cases ha : isSpaceChar a = true
      · simp [ha, dropTrailingSpaces]
      · simp [ha, dropTrailingSpaces]
    | cons x xs =>
      have : dropTrailingSpaces (x :: xs) = x :: xs := by
        rw [← hr, ih, hr]
      rw [dropTrailingSpaces]
      rw [this]

theorem stripChars_idem (l : List Char) :
    stripChars (stripChars l) = stripChars l := by
  unfold stripChars
  rw [dropWhile_eq_self_of_noSpaceHead
        (noSpaceHead_dropTrailingSpaces (noSpaceHead_dropWhile l)),
      dropTrailingSpaces_idem]

theorem map_id_of_mem {α : Type} {f : α → α} :
    ∀ l : List α, (∀ a ∈ l, f a = a) → l.map f = l := by
  intro l
  induction l with
  | nil => intro _; rfl
  | cons a t ih =>
    intro h
    simp only [List.map_cons]
    rw [h a (List.mem_cons_self _ _), ih (fun x hx => h x (List.mem_cons_of_mem _ hx))]

/-- Claim C10: text normalization as implemented by
`RAGHandler._normalize_text` is idempotent:
`normalize(normalize(x)) == normalize(x)` for every string. -/
theorem claim_C10_normalize_idempotent (l : List Char) :
    normalizeText (normalizeText l) = normalizeText l := by
  set ws := (l.map lowerChar).filter keepChar with hws
  set zs := stripChars (collapseAux false ws) with hzs
  have hmemz : ∀ c ∈ zs, c ∈ ws ∨ c = ' ' := by
    intro c hc
    exact mem_collapseAux false ws (mem_stripChars hc)
  have hlower : zs.map lowerChar = zs := by
    refine map_id_of_mem zs ?_
    intro c hc
    rcases hmemz c hc with h | h
    · rcases List.mem_map.mp (List.mem_of_mem_filter h) with ⟨a, _, ha⟩
      rw [← ha, lowerChar_idem]
    · rw [h]; decide
  have hfilter : zs.filter keepChar = zs := by
    rw [List.filter_eq_self]
    intro c hc
    rcases hmemz c hc with h | h
    · exact List.of_mem_filter h
    · rw [h]; decide
  have hsp : ∀ c ∈ zs, isSpaceChar c = true → c = ' ' := by
    intro c hc
    exact spacesSp_collapse_strip (hzs ▸ hc)
  have hadj : noAdjSp zs = true := by
    rw [hzs]
    unfold stripChars
    exact noAdjSp_dropTrailingSpaces (noAdjSp_dropWhile (noAdjSp_collapseAux false ws))
  have hcoll : collapseAux false zs = zs :=
    collapseAux_eq_self zs hsp hadj false (by simp)
  show stripChars (collapseAux false ((zs.map lowerChar).filter keepChar)) = zs
  rw [hlower, hfilter, hcoll, hzs, stripChars_idem]

/-! ## Age extraction (`extract_age_info`, src/ai/rag_handler.py:66-104)

The five regex patterns
`от (\d+)(?:\s*-\s*|\s+до\s+)(\d+)\s*лет`, `(\d+)(?:\s*-\s*|\s+до\s+)(\d+)\s*лет`,
`старше (\d+)\s*лет`, `младше (\d+)\s*лет`, `(\d+)\s*лет`
are implemented as deterministic maximal-munch matchers.  For these patterns
greedy matching never needs to backtrack into `\d+` or `\s+`/`\s*`: the
character classes of two adjacent pattern pieces are disjoint (a digit is
never whitespace, `-`, or `д`/`л`).  `re.finditer` enumerates matches
leftmost-first and the source returns on the first one, which corresponds to
scanning start positions left to right.  `\d` is modelled by ASCII digits,
the digits appearing in the knowledge base and queries. -/

/-- Numeric value of a digit run. -/
def digitsToNat (ds : List Char) : Nat :=
  ds.foldl (fun a c => a * 10 + (c.toNat - 48)) 0

/-- Consume an exact literal; return the rest of the input. -/
def eatLit : List Char → List Char → Option (List Char)
  | [], r => some r
  | _ :: _, [] => none
  | p :: ps, c :: cs => if c = p then eatLit ps cs else none

/-- Consume `(\d+)` greedily; return its value and the rest. -/
def eatDigits (l : List Char) : Option (Nat × List Char) :=
  let ds := l.takeWhile Char.isDigit
  if ds.isEmpty then none else some (digitsToNat ds, l.dropWhile Char.isDigit)

/-- Consume `\s*`. -/
def eatSpaces0 (l : List Char) : List Char := l.dropWhile isSpaceChar

/-- Consume `\s+`. -/
def eatSpaces1 : List Char → Option (List Char)
  | [] => none
  | c :: cs =>
    if isSpaceChar c then some ((c :: cs).dropWhile isSpaceChar) else none

def strOtSp : List Char := ("от ").data

def strDo : List Char := ("до").data

def strLet : List Char := ("лет").data

def strStarshe : List Char := ("старше").data

def strStarsheSp : List Char := ("старше ").data

def strMladshe : List Char := ("младше").data

def strMladsheSp : List Char := ("младше ").data

/-- The range separator `(?:\s*-\s*|\s+до\s+)`, alternatives tried in
order.  If `\s*` is followed by `-` the first alternative is committed
(the second would need `д` at the position holding `-`). -/
def eatRangeSep (l : List Char) : Option (List Char) :=
  match eatSpaces0 l with
  | '-' :: r => some (eatSpaces0 r)
  | _ =>
    match eatSpaces1 l with
    | some r =>
      match eatLit strDo r with
      | some r2 => eatSpaces1 r2
      | none => none
    | none => none

/-- Pattern 1 `от (\d+)(?:\s*-\s*|\s+до\s+)(\d+)\s*лет` anchored at the
start of `l`. -/
def matchP1At (l : List Char) : Option (Nat × Nat) := do
  let r ← eatLit strOtSp l
  let (a, r) ← eatDigits r
  let r ← eatRangeSep r
  let (b, r) ← eatDigits r
  let _ ← eatLit strLet (eatSpaces0 r)
  some (a, b)

/-- Pattern 2 `(\d+)(?:\s*-\s*|\s+до\s+)(\d+)\s*лет` anchored at the start. -/
def matchP2At (l : List Char) : Option (Nat × Nat) := do
  let (a, r) ← eatDigits l
  let r ← eatRangeSep r
  let (b, r) ← eatDigits r
  let _ ← eatLit strLet (eatSpaces0 r)
  some (a, b)

/-- Pattern 3 `старше (\d+)\s*лет` anchored at the start. -/
def matchP3At (l : List Char) : Option Nat := do
  let r ← eatLit strStarsheSp l
  let (a, r) ← eatDigits r
  let _ ← eatLit strLet (eatSpaces0 r)
  some a

/-- Pattern 4 `младше (\d+)\s*лет` anchored at the start. -/
def matchP4At (l : List Char) : Option Nat := do
  let r ← eatLit strMladsheSp l
  let (a, r) ← eatDigits r
  let _ ← eatLit strLet (eatSpaces0 r)
  some a

/-- Pattern 5 `(\d+)\s*лет` anchored at the start. -/
def matchP5At (l : List Char) : Option Nat := do
  let (a, r) ← eatDigits l
  let _ ← eatLit strLet (eatSpaces0 r)
  some a

/-- Leftmost match: try the anchored matcher at each start position. -/
def scanFind {α : Type} (f : List Char → Option α) : List Char → Option α
  | [] => f []
  | c :: t => (f (c :: t)).orElse (fun _ => scanFind f t)

def findP1 (l : List Char) : Option (Nat × Nat) := scanFind matchP1At l

def findP2 (l : List Char) : Option (Nat × Nat) := scanFind matchP2At l

def findP3 (l : List Char) : Option Nat := scanFind matchP3At l

def findP4 (l : List Char) : Option Nat := scanFind matchP4At l

def findP5 (l : List Char) : Option Nat := scanFind matchP5At l

/-- Does `pat` occur at the start of `l`? -/
def startsWithL : List Char → List Char → Bool
  | [], _ => true
  | _ :: _, [] => false
  | p :: ps, c :: cs => decide (c = p) && startsWithL ps cs

/-- Python's `pat in l` substring test. -/
def hasSub : List Char → List Char → Bool
  | [], pat => pat.isEmpty
  | c :: t, pat => startsWithL pat (c :: t) || hasSub t pat

/-- Result record of `extract_age_info`. -/
structure AgeInfo where
  min_age : Option Nat
  max_age : Option Nat
  has_age_info : Bool
deriving DecidableEq

/-- Branch taken by `extract_age_info` when the matched pattern has one
group (src/ai/rag_handler.py:92-99): the `старше`/`младше` membership tests
run against the whole lowered text, whichever pattern matched. -/
def oneGroupResult (t : List Char) (a : Nat) : AgeInfo :=
  if hasSub t strStarshe then ⟨some a, none, true⟩
  else if hasSub t strMladshe then ⟨none, some a, true⟩
  else ⟨some a, some a, true⟩

/-- `extract_age_info` (src/ai/rag_handler.py:66-104): patterns are tried in
listed order against the lowered text and the first match returns. -/
def extractAgeInfo (text : List Char) : AgeInfo :=
  let t := lowerPy text
  match findP1 t with
  | some (a, b) => ⟨some a, some b, true⟩
  | none =>
    match findP2 t with
    | some (a, b) => ⟨some a, some b, true⟩
    | none =>
      match findP3 t with
      | some a => oneGroupResult t a
      | none =>
        match findP4 t with
        | some a => oneGroupResult t a
        | none =>
          match findP5 t with
          | some a => oneGroupResult t a
          | none => ⟨none, none, false⟩

theorem eatLit_startsWith : ∀ (pat l r : List Char),
    eatLit pat l = some r → startsWithL pat l = true := by
  intro pat
  induction pat with
  | nil => intro l r _; rfl
  | cons p ps ih =>
    intro l r h
    cases l with
    | nil => simp [eatLit] at h
    | cons c cs =>
      rw [eatLit] at h
      by_cases hc : c = p
      · have h' := ih cs r (by simpa [hc] using h)
        simp [startsWithL, hc, h']
      · simp [hc] at h

theorem startsWithL_append_left : ∀ (p q l : List Char),
    startsWithL (p ++ q) l = true → startsWithL p l = true := by
  intro p
  induction p with
  | nil => intro q l _; rfl
  | cons x xs ih =>
    intro q l h
    cases l with
    | nil => simp [startsWithL] at h
    | cons c cs =>
      rw [List.cons_append, startsWithL] at h
      rw [startsWithL]
      rcases Bool.and_eq_true_iff.mp h with ⟨h1, h2⟩
      rw [h1, ih q cs h2]
      rfl

theorem startsWithL_nil_eq {pat : List Char}
    (h : startsWithL pat [] = true) : pat = [] := by
  cases pat with
  | nil => rfl
  | cons p ps => simp [startsWithL] at h

theorem scanFind_hasSub {α : Type} {f : List Char → Option α}
    {pat : List Char}
    (hf : ∀ l a, f l = some a → startsWithL pat l = true) :
    ∀ (l : List Char) (a : α), scanFind f l = some a → hasSub l pat = true := by
  intro l
  induction l with
  | nil =>
    intro a h
    rw [scanFind] at h
    rw [hasSub, startsWithL_nil_eq (hf [] a h)]
    rfl
  | cons c t ih =>
    intro a h
    rw [scanFind] at h
    rw [hasSub]
    cases hfc : f (c :: t) with
    | some v => rw [hf (c :: t) v hfc]; rfl
    | none =>
      rw [hfc] at h
      simp only [Option.orElse] at h
      rw [ih a h]
      simp

theorem matchP3At_starts (l : List Char) (a : Nat)
    (h : matchP3At l = some a) : startsWithL strStarshe l = true := by
  rw [matchP3At] at h
  cases he : eatLit strStarsheSp l with
  | none => rw [he] at h; simp at h
  | some r =>
    have : strStarsheSp = strStarshe ++ [' '] := by decide
    exact startsWithL_append_left _ _ _ (this ▸ eatLit_startsWith _ _ _ he)

theorem matchP4At_starts (l : List Char) (a : Nat)
    (h : matchP4At l = some a) : startsWithL strMladshe l = true := by
  rw [matchP4At] at h
  cases he : eatLit strMladsheSp l with
  | none => rw [he] at h; simp at h
  | some r =>
    have : strMladsheSp = strMladshe ++ [' '] := by decide
    exact startsWithL_append_left _ _ _ (this ▸ eatLit_startsWith _ _ _ he)

theorem findP3_hasSub {l : List Char} {a : Nat} (h : findP3 l = some a) :
    hasSub l strStarshe = true :=
  scanFind_hasSub matchP3At_starts l a h

theorem findP4_hasSub {l : List Char} {a : Nat} (h : findP4 l = some a) :
    hasSub l strMladshe = true :=
  scanFind_hasSub matchP4At_starts l a h

/-- Claim C5: the age extractor tries its patterns in a fixed priority order
with the range forms first and stops at the first match: whenever the first
range pattern (`от X до Y лет` / `от X-Y лет`) has a match in the lowered
text, the extractor returns that range, regardless of any later bare-age
mention.  The witness instantiates the spec's example
`"от 5 до 7 лет, в частности 6 лет" ↦ {min 5, max 7, has true}`. -/
theorem claim_C5_range_priority (t : List Char) (a b : Nat)
    (h : findP1 (lowerPy t) = some (a, b)) :
    extractAgeInfo t = ⟨some a, some b, true⟩ := by
  simp only [extractAgeInfo, h]

theorem claim_C5_range_priority_witness :
    findP1 (lowerPy (("от 5 до 7 лет, в частности 6 лет").data)) = some (5, 7) ∧
    extractAgeInfo (("от 5 до 7 лет, в частности 6 лет").data) =
      ⟨some 5, some 7, true⟩ :=
  ⟨by decide, claim_C5_range_priority _ 5 7 (by decide)⟩

/-- Counterexample to claim C6: in `"старше, 5 лет"` the only matching age
pattern is the bare `(\d+)\s*лет` (patterns 1-4 have no match: `старше` is
followed by a comma, not a number), yet the extractor returns
`{min 5, max null}` rather than the claimed `min = max = 5`, because the
one-group branch tests `'старше' in text.lower()` over the whole text, not
which pattern matched (src/ai/rag_handler.py:92-99). -/
theorem claim_C6_counterexample :
    findP1 (lowerPy (("старше, 5 лет").data)) = none ∧
    findP2 (lowerPy (("старше, 5 лет").data)) = none ∧
    findP3 (lowerPy (("старше, 5 лет").data)) = none ∧
    findP4 (lowerPy (("старше, 5 лет").data)) = none ∧
    findP5 (lowerPy (("старше, 5 лет").data)) = some 5 ∧
    extractAgeInfo (("старше, 5 лет").data) = ⟨some 5, none, true⟩ ∧
    extractAgeInfo (("старше, 5 лет").data) ≠ ⟨some 5, some 5, true⟩ := by
  refine ⟨by decide, by decide, by decide, by decide, by decide, by decide, by decide⟩

/-- Claim C6 (amended): the single-bound and bare forms map as claimed with
the side conditions the branch structure forces: a first match of
`старше X лет` yields `{min X, max null}` (then `старше` necessarily occurs
in the text); a first match of `младше X лет` yields `{min null, max X}`
provided `старше` does not also occur in the text; a sole bare `X лет`
match yields `min = max = X` provided neither `старше` nor `младше` occurs
in the text; no match at all yields `{null, null, false}`. -/
theorem claim_C6_amended_single_forms :
    (∀ (t : List Char) (x : Nat), findP1 (lowerPy t) = none →
       findP2 (lowerPy t) = none → findP3 (lowerPy t) = some x →
       extractAgeInfo t = ⟨some x, none, true⟩) ∧
    (∀ (t : List Char) (x : Nat), findP1 (lowerPy t) = none →
       findP2 (lowerPy t) = none → findP3 (lowerPy t) = none →
       findP4 (lowerPy t) = some x →
       hasSub (lowerPy t) strStarshe = false →
       extractAgeInfo t = ⟨none, some x, true⟩) ∧
    (∀ (t : List Char) (x : Nat), findP1 (lowerPy t) = none →
       findP2 (lowerPy t) = none → findP3 (lowerPy t) = none →
       findP4 (lowerPy t) = none → findP5 (lowerPy t) = some x →
       hasSub (lowerPy t) strStarshe = false →
       hasSub (lowerPy t) strMladshe = false →
       extractAgeInfo t = ⟨some x, some x, true⟩) ∧
    (∀ t : List Char, findP1 (lowerPy t) = none → findP2 (lowerPy t) = none →
       findP3 (lowerPy t) = none → findP4 (lowerPy t) = none →
       findP5 (lowerPy t) = none →
       extractAgeInfo t = ⟨none, none, false⟩) := by
  refine ⟨?_, ?_, ?_, ?_⟩
  · intro t x h1 h2 h3
    simp only [extractAgeInfo, h1, h2, h3, oneGroupResult, findP3_hasSub h3,
      if_pos]
  · intro t x h1 h2 h3 h4 hst
    simp only [extractAgeInfo, h1, h2, h3, h4, oneGroupResult, hst,
      findP4_hasSub h4, Bool.false_eq_true, if_false, if_pos]
  · intro t x h1 h2 h3 h4 h5 hst hml
    simp only [extractAgeInfo, h1, h2, h3, h4, h5, oneGroupResult, hst, hml,
      Bool.false_eq_true, if_false]
  · intro t h1 h2 h3 h4 h5
    simp only [extractAgeInfo, h1, h2, h3, h4, h5]

theorem claim_C6_amended_single_forms_witness :
    extractAgeInfo (("старше 10 лет").data) = ⟨some 10, none, true⟩ ∧
    extractAgeInfo (("младше 3 лет").data) = ⟨none, some 3, true⟩ ∧
    extractAgeInfo (("5 лет").data) = ⟨some 5, some 5, true⟩ ∧
    extractAgeInfo (("привет").data) = ⟨none, none, false⟩ :=
  ⟨claim_C6_amended_single_forms.1 _ 10 (by decide) (by decide) (by decide),
   claim_C6_amended_single_forms.2.1 _ 3 (by decide) (by decide) (by decide)
     (by decide) (by decide),
   claim_C6_amended_single_forms.2.2.1 _ 5 (by decide) (by decide) (by decide)
     (by decide) (by decide) (by decide) (by decide),
   claim_C6_amended_single_forms.2.2.2 _ (by decide) (by decide) (by decide)
     (by decide) (by decide)⟩

/-! ## Age-range score adjustment (src/ai/rag_handler.py:230-256) -/

/-- The age-information block of `_get_relevant_documents`: starting from
the current score `s`, apply the range/bound multipliers of lines 231-256.
Multipliers are exact rationals standing for the source's float literals. -/
def ageAdjust (qa da : AgeInfo) (s : ℚ) : ℚ :=
  if qa.has_age_info && da.has_age_info then
    match qa.min_age, qa.max_age, da.min_age, da.max_age with
    | some qmin, some qmax, some dmin, some dmax =>
      if qmin ≤ dmax ∧ dmin ≤ qmax then
        if qmin = dmin ∧ qmax = dmax then s * (3/2) * (6/5) else s * (3/2)
      else s * (1/2)
    | _, _, _, _ =>
      match qa.min_age, da.min_age with
      | some qmin, some dmin =>
        if ((qmin : ℤ) - (dmin : ℤ)).natAbs ≤ 2 then s * (13/10) else s
      | _, _ =>
        match qa.max_age, da.max_age with
        | some qmax, some dmax =>
          if ((qmax : ℤ) - (dmax : ℤ)).natAbs ≤ 2 then s * (13/10) else s
        | _, _ => s
  else s

/-- Counterexample to claim C7: the claim states the 1.3 multiplier applies
only when min ages alone are present on both sides; but for a query carrying
the full range `{min 5, max 7}` against a unit carrying `{min 5, max null}`
the code's `elif` chain still applies 1.3 (the four-bound condition fails
because the unit's max is null, and both mins are present and differ by 0). -/
theorem claim_C7_counterexample :
    ageAdjust ⟨some 5, some 7, true⟩ ⟨some 5, none, true⟩ 1 = 13/10 ∧
    (⟨some 5, some 7, true⟩ : AgeInfo).max_age ≠ none := by
  constructor
  · norm_num [ageAdjust]
  · simp

/-- Claim C7 (amended): with age info on both sides, full ranges multiply by
1.5 when intersecting (an additional 1.2 when identical) and by 0.5 when
disjoint; the 1.3 multiplier applies whenever both min ages are present but
not all four bounds are (even if one side also carries a max bound), and for
max ages whenever both are present and the min-age pair is incomplete; in
the remaining configurations the score is unchanged, as it is when either
side lacks age info. -/
theorem claim_C7_amended_age_adjustment :
    (∀ (qa da : AgeInfo) (s : ℚ), (qa.has_age_info && da.has_age_info) = false →
       ageAdjust qa da s = s) ∧
    (∀ (qmin qmax dmin dmax : Nat) (s : ℚ), qmin ≤ dmax → dmin ≤ qmax →
       qmin = dmin → qmax = dmax →
       ageAdjust ⟨some qmin, some qmax, true⟩ ⟨some dmin, some dmax, true⟩ s =
         s * (3/2) * (6/5)) ∧
    (∀ (qmin qmax dmin dmax : Nat) (s : ℚ), qmin ≤ dmax → dmin ≤ qmax →
       ¬(qmin = dmin ∧ qmax = dmax) →
       ageAdjust ⟨some qmin, some qmax, true⟩ ⟨some dmin, some dmax, true⟩ s =
         s * (3/2)) ∧
    (∀ (qmin qmax dmin dmax : Nat) (s : ℚ), ¬(qmin ≤ dmax ∧ dmin ≤ qmax) →
       ageAdjust ⟨some qmin, some qmax, true⟩ ⟨some dmin, some dmax, true⟩ s =
         s * (1/2)) ∧
    (∀ (qmin dmin : Nat) (qmaxo dmaxo : Option Nat) (s : ℚ),
       qmaxo = none ∨ dmaxo = none →
       (((qmin : ℤ) - (dmin : ℤ)).natAbs ≤ 2 →
         ageAdjust ⟨some qmin, qmaxo, true⟩ ⟨some dmin, dmaxo, true⟩ s =
           s * (13/10)) ∧
       (¬((qmin : ℤ) - (dmin : ℤ)).natAbs ≤ 2 →
         ageAdjust ⟨some qmin, qmaxo, true⟩ ⟨some dmin, dmaxo, true⟩ s = s)) ∧
    (∀ (qmax dmax : Nat) (qmino dmino : Option Nat) (s : ℚ),
       qmino = none ∨ dmino = none →
       (((qmax : ℤ) - (dmax : ℤ)).natAbs ≤ 2 →
         ageAdjust ⟨qmino, some qmax, true⟩ ⟨dmino, some dmax, true⟩ s =
           s * (13/10)) ∧
       (¬((qmax : ℤ) - (dmax : ℤ)).natAbs ≤ 2 →
         ageAdjust ⟨qmino, some qmax, true⟩ ⟨dmino, some dmax, true⟩ s = s)) ∧
    (∀ (qa da : AgeInfo) (s : ℚ),
       (qa.min_age = none ∨ da.min_age = none) →
       (qa.max_age = none ∨ da.max_age = none) →
       ageAdjust qa da s = s) := by
  refine ⟨?_, ?_, ?_, ?_, ?_, ?_, ?_⟩
  · intro qa da s h
    simp [ageAdjust, h]
  · intro qmin qmax dmin dmax s h1 h2 h3 h4
    subst h3; subst h4
    simp [ageAdjust, h1, h2]
  · intro qmin qmax dmin dmax s h1 h2 h3
    simp [ageAdjust, h1, h2, h3]
  · intro qmin qmax dmin dmax s h
    rw [Decidable.not_and_iff_or_not] at h
    rcases h with h | h <;> simp [ageAdjust, h, Nat.lt_of_not_le h]
  · intro qmin dmin qmaxo dmaxo s hnone
    constructor <;> intro hd
    · rcases hnone with h | h
      · subst h; cases dmaxo <;> simp [ageAdjust, hd]
      · subst h; cases qmaxo <;> simp [ageAdjust, hd]
    · rcases hnone with h | h
      · subst h; cases dmaxo <;> simp [ageAdjust, hd]
      · subst h; cases qmaxo <;> simp [ageAdjust, hd]
  · intro qmax dmax qmino dmino s hnone
    constructor <;> intro hd
    · rcases hnone with h | h
      · subst h; cases dmino <;> simp [ageAdjust, hd]
      · subst h; cases qmino <;> simp [ageAdjust, hd]
    · rcases hnone with h | h
      · subst h; cases dmino <;> simp [ageAdjust, hd]
      · subst h; cases qmino <;> simp [ageAdjust, hd]
  · intro qa da s hmin hmax
    obtain ⟨qmino, qmaxo, qh⟩ := qa
    obtain ⟨dmino, dmaxo, dh⟩ := da
    simp only at hmin hmax
    cases qh
    · simp [ageAdjust]
    · cases dh
      · simp [ageAdjust]
      · rcases hmin with h | h
        · subst h
          rcases hmax with h' | h'
          · subst h'; cases dmino <;> cases dmaxo <;> simp [ageAdjust]
          · subst h'; cases dmino <;> cases qmaxo <;> simp [ageAdjust]
        · subst h
          rcases hmax with h' | h'
          · subst h'; cases qmino <;> cases dmaxo <;> simp [ageAdjust]
          · subst h'; cases qmino <;> cases qmaxo <;> simp [ageAdjust]

theorem claim_C7_amended_age_adjustment_witness :
    ageAdjust ⟨some 6, some 6, true⟩ ⟨some 5, some 7, true⟩ 1 = 1 * (3/2) ∧
    ageAdjust ⟨some 5, some 7, true⟩ ⟨some 6, none, true⟩ 2 = 2 * (13/10) :=
  ⟨claim_C7_amended_age_adjustment.2.2.1 6 6 5 7 1 (by norm_num) (by norm_num)
     (by norm_num),
   (claim_C7_amended_age_adjustment.2.2.2.2.1 5 6 (some 7) none 2
     (Or.inr rfl)).1 (by norm_num)⟩

/-! ## Knowledge flattening (`_flatten_knowledge`/`process_item`,
src/ai/rag_handler.py:56-173)

Knowledge trees are modelled as nested objects/arrays with string leaves
(the shapes occurring in the JSON knowledge base).  A `none` result models a
raised exception: `extract_age_info` applied to a non-string crashes, and
`_load_knowledge_base` then discards the whole file's documents. -/

/-- One retrievable knowledge unit. -/
structure Doc where
  text : List Char
  question : List Char
  answer : List Char
  context : List Char
  ageInfo : AgeInfo
deriving DecidableEq

/-- Python's `x or y` on optional ints: `None` and `0` are falsy. -/
def pyOrNat : Option Nat → Option Nat → Option Nat
  | some v, b => if v = 0 then b else some v
  | none, b => b

/-- Merge of question-side and answer-side age info
(src/ai/rag_handler.py:113-118). -/
def mergeAgeInfo (qi ai : AgeInfo) : AgeInfo :=
  ⟨pyOrNat qi.min_age ai.min_age, pyOrNat qi.max_age ai.max_age,
   qi.has_age_info || ai.has_age_info⟩

/-- A JSON-like knowledge tree. -/
inductive KTree where
  | leaf : List Char → KTree
  | arr : List KTree → KTree
  | obj : List (List Char × KTree) → KTree

def lookupKey : List (List Char × KTree) → List Char → Option KTree
  | [], _ => none
  | (k, v) :: t, key => if k = key then some v else lookupKey t key

def asLeaf : KTree → Option (List Char)
  | .leaf s => some s
  | _ => none

def strVopros : List Char := ("вопрос").data

def strOtvet : List Char := ("ответ").data

def strQuestion : List Char := ("question").data

def strAnswer : List Char := ("answer").data

/-- `f"{context} {key}".strip()` (src/ai/rag_handler.py:165). -/
def newContext (ctx k : List Char) : List Char := stripChars (ctx ++ ' ' :: k)

/-- Build one unit from a question/answer pair under a context
(src/ai/rag_handler.py:109-126). -/
def mkDoc (q a ctx : List Char) : Doc :=
  { text := q ++ ' ' :: a, question := q, answer := a, context := ctx,
    ageInfo := mergeAgeInfo (extractAgeInfo q) (extractAgeInfo a) }

/-- Emission step of `process_item` on a mapping: the Russian
`вопрос`/`ответ` pair first, else the `question`/`answer` pair where the
question may be a list of variants sharing one answer. -/
def emitQA (kvs : List (List Char × KTree)) (ctx : List Char) :
    Option (List Doc) :=
  match lookupKey kvs strVopros, lookupKey kvs strOtvet with
  | some qv, some av =>
    match asLeaf qv, asLeaf av with
    | some q, some a => some [mkDoc q a ctx]
    | _, _ => none
  | _, _ =>
    match lookupKey kvs strQuestion, lookupKey kvs strAnswer with
    | some qv, some av =>
      (asLeaf av).bind (fun a =>
        match qv with
        | .arr qs => (qs.mapM asLeaf).map (fun ql => ql.map (fun q => mkDoc q a ctx))
        | .leaf q => some [mkDoc q a ctx]
        | .obj _ => none)
    | _, _ => some []

mutual

/-- `process_item` (src/ai/rag_handler.py:105-172): emit the unit(s) of the
current mapping, then recurse into every value with the key appended to the
context. -/
def processItem : KTree → List Char → Option (List Doc)
  | .leaf _, _ => some []
  | .arr items, ctx => processList items ctx
  | .obj kvs, ctx => do
    let emitted ← emitQA kvs ctx
    let rest ← processKVs kvs ctx
    some (emitted ++ rest)

def processList : List KTree → List Char → Option (List Doc)
  | [], _ => some []
  | t :: ts, ctx => do
    let a ← processItem t ctx
    let b ← processList ts ctx
    some (a ++ b)

def processKVs : List (List Char × KTree) → List Char → Option (List Doc)
  | [], _ => some []
  | (k, v) :: rest, ctx => do
    let a ← processItem v (newContext ctx k)
    let b ← processKVs rest ctx
    some (a ++ b)

end

/-- `_flatten_knowledge` seeds `process_item` with the empty context. -/
def flattenKnowledge (t : KTree) : Option (List Doc) := processItem t []

/-- The spec's reading of a context: the mapping keys on the path to the
unit, space-joined, most-distant-ancestor first. -/
def spaceJoin : List (List Char) → List Char
  | [] => []
  | [k] => k
  | k :: rest => k ++ ' ' :: spaceJoin rest

mutual

/-- Modelled from the spec: `process_item` carrying the explicit key path
instead of the folded context string; each unit's context is
`spaceJoin path`. -/
def processItemP : KTree → List (List Char) → Option (List Doc)
  | .leaf _, _ => some []
  | .arr items, path => processListP items path
  | .obj kvs, path => do
    let emitted ← emitQA kvs (spaceJoin path)
    let rest ← processKVsP kvs path
    some (emitted ++ rest)

def processListP : List KTree → List (List Char) → Option (List Doc)
  | [], _ => some []
  | t :: ts, path => do
    let a ← processItemP t path
    let b ← processListP ts path
    some (a ++ b)

def processKVsP : List (List Char × KTree) → List (List Char) → Option (List Doc)
  | [], _ => some []
  | (k, v) :: rest, path => do
    let a ← processItemP v (path ++ [k])
    let b ← processKVsP rest path
    some (a ++ b)

end

/-- A key is clean when it is nonempty with non-whitespace first and last
characters. -/
def cleanKey (k : List Char) : Bool :=
  match k.head?, k.getLast? with
  | some a, some b => !isSpaceChar a && !isSpaceChar b
  | _, _ => false

mutual

def cleanTree : KTree → Bool
  | .leaf _ => true
  | .arr items => cleanList items
  | .obj kvs => cleanKVs kvs

def cleanList : List KTree → Bool
  | [] => true
  | t :: ts => cleanTree t && cleanList ts

def cleanKVs : List (List Char × KTree) → Bool
  | [] => true
  | (k, v) :: rest => cleanKey k && cleanTree v && cleanKVs rest

end

/-- Member-based induction over knowledge trees. -/
def kTreeInduct {motive : KTree → Prop}
    (hleaf : ∀ s, motive (.leaf s))
    (harr : ∀ ts, (∀ t ∈ ts, motive t) → motive (.arr ts))
    (hobj : ∀ kvs, (∀ kv ∈ kvs, motive kv.2) → motive (.obj kvs)) :
    ∀ t, motive t
  | .leaf s => hleaf s
  | .arr ts => harr ts (fun t ht =>
      have : sizeOf t < 1 + sizeOf ts := by
        have := List.sizeOf_lt_of_mem ht
        omega
      kTreeInduct hleaf harr hobj t)
  | .obj kvs => hobj kvs (fun kv hkv =>
      have : sizeOf kv.2 < 1 + sizeOf kvs := by
        have h1 := List.sizeOf_lt_of_mem hkv
        obtain ⟨k, v⟩ := kv
        simp only [Prod.mk.sizeOf_spec] at h1
        simp only
        omega
      kTreeInduct hleaf harr hobj kv.2)
termination_by t => sizeOf t

theorem dropTrailingSpaces_eq_self {l : List Char} {c : Char}
    (h : l.getLast? = some c) (hc : isSpaceChar c = false) :
    dropTrailingSpaces l = l := by
  induction l with
  | nil => rfl
  | cons a t ih =>
    cases t with
    | nil =>
      simp only [List.getLast?_singleton, Option.some.injEq] at h
      subst h
      simp [dropTrailingSpaces, hc]
    | cons b u =>
      have ht : dropTrailingSpaces (b :: u) = b :: u := by
        apply ih
        simpa [List.getLast?_cons_cons] using h
      rw [dropTrailingSpaces, ht]

theorem stripChars_eq_self_of_clean {l : List Char} (h : cleanKey l = true) :
    stripChars l = l := by
  cases l with
  | nil => simp [cleanKey] at h
  | cons a t =>
    rw [cleanKey] at h
    cases hla : (a :: t).getLast? with
    | none => simp [hla] at h
    | some b =>
      rw [List.head?_cons, hla] at h
      rcases Bool.and_eq_true_iff.mp h with ⟨ha, hb⟩
      simp only [Bool.not_eq_true'] at ha hb
      rw [stripChars, dropWhile_eq_self_of_noSpaceHead (by simp [noSpaceHead, ha]),
        dropTrailingSpaces_eq_self hla hb]

theorem cleanKey_ne_nil {l : List Char} (h : cleanKey l = true) : l ≠ [] := by
  intro hnil
  subst hnil
  simp [cleanKey] at h

theorem spaceJoin_cons {k : List Char} {rest : List (List Char)}
    (h : rest ≠ []) : spaceJoin (k :: rest) = k ++ ' ' :: spaceJoin rest := by
  cases rest with
  | nil => exact absurd rfl h
  | cons r u => rfl

theorem spaceJoin_ne_nil {path : List (List Char)}
    (hc : ∀ p ∈ path, cleanKey p = true) (h : path ≠ []) :
    spaceJoin path ≠ [] := by
  cases path with
  | nil => exact absurd rfl h
  | cons k rest =>
    cases rest with
    | nil =>
      exact cleanKey_ne_nil (hc k (List.mem_cons_self _ _))
    | cons r u =>
      rw [spaceJoin_cons (by simp)]
      exact List.append_ne_nil_of_left_ne_nil
        (cleanKey_ne_nil (hc k (List.mem_cons_self _ _))) _

theorem spaceJoin_clean {path : List (List Char)}
    (hc : ∀ p ∈ path, cleanKey p = true) (h : path ≠ []) :
    cleanKey (spaceJoin path) = true := by
  induction path with
  | nil => exact absurd rfl h
  | cons k rest ih =>
    cases rest with
    | nil => exact hc k (List.mem_cons_self _ _)
    | cons r u =>
      have hk := hc k (List.mem_cons_self _ _)
      have hrest : ∀ p ∈ r :: u, cleanKey p = true :=
        fun p hp => hc p (List.mem_cons_of_mem _ hp)
      have hJ := ih hrest (by simp)
      have hJne : spaceJoin (r :: u) ≠ [] := spaceJoin_ne_nil hrest (by simp)
      rw [spaceJoin_cons (by simp)]
      rw [cleanKey] at hk hJ ⊢
      rw [List.head?_append_of_ne_nil _ (cleanKey_ne_nil (hc k (List.mem_cons_self _ _)))]
      rw [List.getLast?_append_of_ne_nil _ (by simp : (' ' :: spaceJoin (r :: u)) ≠ [])]
      cases hh : (k : List Char).head? with
      | none => rw [hh] at hk; simp at hk
      | some a =>
        rw [hh] at hk
        cases hg : (' ' :: spaceJoin (r :: u)).getLast? with
        | none => simp [List.getLast?_cons] at hg
        | some b =>
          have : (' ' :: spaceJoin (r :: u)).getLast? = (spaceJoin (r :: u)).getLast? := by
            cases hJs : spaceJoin (r :: u) with
            | nil => exact absurd hJs hJne
            | cons x xs => simp [List.getLast?_cons_cons]
          rw [this] at hg
          cases hkl : (k : List Char).getLast? with
          | none => rw [hkl] at hk; simp at hk
          | some c =>
            rw [hkl] at hk
            cases hJh : (spaceJoin (r :: u)).head? with
            | none => rw [hJh] at hJ; simp at hJ
            | some d =>
              rw [hJh, hg] at hJ
              rcases Bool.and_eq_true_iff.mp hk with ⟨ha, _⟩
              rcases Bool.and_eq_true_iff.mp hJ with ⟨_, hb⟩
              simp [ha, hb]

theorem spaceJoin_append_single {path : List (List Char)} {k : List Char}
    (h : path ≠ []) :
    spaceJoin (path ++ [k]) = spaceJoin path ++ ' ' :: k := by
  induction path with
  | nil => exact absurd rfl h
  | cons p rest ih =>
    cases rest with
    | nil => rfl
    | cons r u =>
      rw [List.cons_append, spaceJoin_cons (by simp),
        spaceJoin_cons (by simp : (r :: u : List (List Char)) ≠ []),
        ih (by simp), List.append_assoc]
      rfl

theorem newContext_join {path : List (List Char)} {k : List Char}
    (hk : cleanKey k = true) (hc : ∀ p ∈ path, cleanKey p = true) :
    newContext (spaceJoin path) k = spaceJoin (path ++ [k]) := by
  cases hpath : path with
  | nil =>
    show stripChars ([] ++ ' ' :: k) = spaceJoin [k]
    rw [List.nil_append]
    show dropTrailingSpaces ((' ' :: k).dropWhile isSpaceChar) = k
    rw [List.dropWhile_cons_of_pos (by decide)]
    have := stripChars_eq_self_of_clean hk
    rw [stripChars] at this
    exact this
  | cons p rest =>
    subst hpath
    rw [spaceJoin_append_single (by simp)]
    rw [newContext]
    have hJ := spaceJoin_clean hc (by simp)
    rw [cleanKey] at hJ
    cases hh : (spaceJoin (p :: rest)).head? with
    | none => rw [hh] at hJ; simp at hJ
    | some a =>
      rw [hh] at hJ
      cases hg : (spaceJoin (p :: rest)).getLast? with
      | none => rw [hg] at hJ; simp at hJ
      | some b =>
        rw [hg] at hJ
        rcases Bool.and_eq_true_iff.mp hJ with ⟨ha, _⟩
        simp only [Bool.not_eq_true'] at ha
        have hhead : noSpaceHead (spaceJoin (p :: rest) ++ ' ' :: k) = true := by
          cases hJs : spaceJoin (p :: rest) with
          | nil => rw [hJs] at hh; simp at hh
          | cons x xs =>
            rw [hJs] at hh
            simp only [List.head?_cons, Option.some.injEq] at hh
            subst hh
            simp [noSpaceHead, ha]
        have hlast : (spaceJoin (p :: rest) ++ ' ' :: k).getLast? =
            (k : List Char).getLast? := by
          rw [List.getLast?_append_of_ne_nil _ (by simp : (' ' :: k) ≠ [])]
          cases hks : (k : List Char) with
          | nil => exact absurd hks (cleanKey_ne_nil hk)
          | cons y ys => simp [List.getLast?_cons_cons]
        rw [cleanKey] at hk
        cases hkl : (k : List Char).getLast? with
        | none => rw [hkl] at hk; simp [hkl] at hk
        | some c =>
          cases hkh : (k : List Char).head? with
          | none => rw [hkh] at hk; simp at hk
          | some d =>
            rw [hkh, hkl] at hk
            rcases Bool.and_eq_true_iff.mp hk with ⟨_, hclast⟩
            simp only [Bool.not_eq_true'] at hclast
            rw [stripChars, dropWhile_eq_self_of_noSpaceHead hhead,
              dropTrailingSpaces_eq_self (hlast.trans hkl) hclast]

theorem processList_refines {path : List (List Char)}
    (hcp : ∀ p ∈ path, cleanKey p = true) :
    ∀ ts : List KTree,
      (∀ t ∈ ts, ∀ path' : List (List Char), cleanTree t = true →
        (∀ p ∈ path', cleanKey p = true) →
        processItem t (spaceJoin path') = processItemP t path') →
      cleanList ts = true →
      processList ts (spaceJoin path) = processListP ts path := by
  intro ts
  induction ts with
  | nil => intro _ _; rfl
  | cons t' ts' ih =>
    intro hmem hcl
    simp only [cleanList, Bool.and_eq_true_iff] at hcl
    rw [processList, processListP,
      hmem t' (List.mem_cons_self _ _) path hcl.1 hcp,
      ih (fun x hx => hmem x (List.mem_cons_of_mem _ hx)) hcl.2]

theorem processKVs_refines {path : List (List Char)}
    (hcp : ∀ p ∈ path, cleanKey p = true) :
    ∀ kvs : List (List Char × KTree),
      (∀ kv ∈ kvs, ∀ path' : List (List Char), cleanTree kv.2 = true →
        (∀ p ∈ path', cleanKey p = true) →
        processItem kv.2 (spaceJoin path') = processItemP kv.2 path') →
      cleanKVs kvs = true →
      processKVs kvs (spaceJoin path) = processKVsP kvs path := by
  intro kvs
  induction kvs with
  | nil => intro _ _; rfl
  | cons kv rest ih =>
    obtain ⟨k, v⟩ := kv
    intro hmem hcl
    simp only [cleanKVs, Bool.and_eq_true_iff] at hcl
    obtain ⟨⟨hk, hv⟩, hrest⟩ := hcl
    have hpath' : ∀ p ∈ path ++ [k], cleanKey p = true := by
      intro p hp
      rcases List.mem_append.mp hp with h | h
      · exact hcp p h
      · rw [List.mem_singleton.mp h]; exact hk
    rw [processKVs, processKVsP, newContext_join hk hcp,
      hmem (k, v) (List.mem_cons_self _ _) (path ++ [k]) hv hpath',
      ih (fun x hx => hmem x (List.mem_cons_of_mem _ hx)) hrest]

/-- Claim C9 (amended): for every knowledge tree all of whose mapping keys
are nonempty and free of leading/trailing whitespace, every emitted unit's
context equals the space-joined sequence of mapping keys on the path from
the root to the unit, outermost key first: `process_item` coincides with
the spec-side variant that carries the explicit key path and stamps
`spaceJoin path` on each unit.  (With the empty context at the top level,
`flattenKnowledge t = processItemP t []`.) -/
theorem claim_C9_amended_context_path :
    ∀ (t : KTree) (path : List (List Char)), cleanTree t = true →
      (∀ p ∈ path, cleanKey p = true) →
      processItem t (spaceJoin path) = processItemP t path := by
  intro t
  induction t using kTreeInduct with
  | hleaf s => intro path _ _; rfl
  | harr ts ih =>
    intro path hct hcp
    show processList ts (spaceJoin path) = processListP ts path
    exact processList_refines hcp ts ih (by simpa [cleanTree] using hct)
  | hobj kvs ih =>
    intro path hct hcp
    rw [processItem, processItemP,
      processKVs_refines hcp kvs ih (by simpa [cleanTree] using hct)]

def qaPair (q a : List Char) : KTree :=
  .obj [(strVopros, .leaf q), (strOtvet, .leaf a)]

/-- A tree whose second-level mapping key is the empty string `""`. -/
def cexTreeC9 : KTree :=
  .obj [((("k1").data), .obj [(([] : List Char),
    qaPair (("в").data) (("о").data))])]

/-- Counterexample to claim C9 as stated for arbitrary trees: with the
nested keys `"k1"` and `""`, the emitted unit's context is `"k1"`
(`f"{context} {key}".strip()` swallows the separator), while the
space-joined key path `"k1" + " " + ""` is `"k1 "`. -/
theorem claim_C9_counterexample :
    processItem cexTreeC9 [] =
      some [mkDoc (("в").data) (("о").data) (("k1").data)] ∧
    spaceJoin [(("k1").data), ([] : List Char)] = (("k1 ").data) ∧
    (mkDoc (("в").data) (("о").data) (("k1").data)).context ≠
      spaceJoin [(("k1").data), ([] : List Char)] := by
  refine ⟨?_, by decide, by decide⟩
  simp only [cexTreeC9, qaPair, processItem, processKVs, processList]
  norm_num
  decide

/-- A three-level tree with clean keys and a single question/answer leaf. -/
def tree3C9 : KTree :=
  .obj [((("a").data), .obj [((("b").data), .obj [((("c").data),
    qaPair (("почему").data) (("потому").data))])])]

theorem claim_C9_amended_context_path_witness :
    cleanTree tree3C9 = true ∧
    processItem tree3C9 (spaceJoin []) = processItemP tree3C9 [] ∧
    processItemP tree3C9 [] =
      some [mkDoc (("почему").data) (("потому").data) (("a b c").data)] := by
  refine ⟨?_, claim_C9_amended_context_path tree3C9 [] ?_ (by simp), ?_⟩
  · simp only [tree3C9, qaPair, cleanTree, cleanKVs, cleanList]
    decide
  · simp only [tree3C9, qaPair, cleanTree, cleanKVs, cleanList]
    decide
  · simp only [tree3C9, qaPair, processItemP, processKVsP, processListP]
    norm_num
    decide

/-! ## Embedding index construction (`_create_embeddings`,
src/ai/rag_handler.py:175-187)

The encoder is an external fallible capability `encode`; a raised exception
is the `Except.error` case.  The source wraps no per-unit error handling:
the loop body `self.embeddings_cache[category][text] = self.model.encode(text)`
lets any encoder exception propagate out of the whole build.  (The singleton
variant, src/ai/rag_singleton.py:91-107, has the same shape.) -/

def assocFind {V : Type} : List (List Char × V) → List Char → Option V
  | [], _ => none
  | (k, v) :: t, key => if k = key then some v else assocFind t key

def assocSet {V : Type} : List (List Char × V) → List Char → V → List (List Char × V)
  | [], key, v => [(key, v)]
  | (k, w) :: t, key, v =>
    if k = key then (k, v) :: t else (k, w) :: assocSet t key v

/-- Add one document's embedding to a category cache if its text is not
cached yet (src/ai/rag_handler.py:183-187). -/
def addDocEmb {V : Type} (encode : List Char → Except Unit V)
    (inner : List (List Char × V)) (d : Doc) :
    Except Unit (List (List Char × V)) :=
  if inner.any (fun p => decide (p.1 = d.text)) then Except.ok inner
  else do
    let v ← encode d.text
    Except.ok (inner ++ [(d.text, v)])

/-- `_create_embeddings` (src/ai/rag_handler.py:175-187) over the loaded
knowledge base, starting from the empty cache of `__init__`. -/
def createEmbeddings {V : Type} (encode : List Char → Except Unit V)
    (kb : List (List Char × List Doc)) :
    Except Unit (List (List Char × List (List Char × V))) :=
  kb.foldlM (fun cache p => do
    let inner ← p.2.foldlM (addDocEmb encode) ((assocFind cache p.1).getD [])
    Except.ok (assocSet cache p.1 inner)) []

def docTextB : Doc := ⟨("b").data, [], [], [], ⟨none, none, false⟩⟩

def docTextG : Doc := ⟨("g").data, [], [], [], ⟨none, none, false⟩⟩

/-- Counterexample to claim C3: with an encoder failing on the first unit's
text, `_create_embeddings` does not skip the unit and continue — the whole
build aborts with the error, so the remaining unit is never embedded. -/
theorem claim_C3_counterexample :
    createEmbeddings
      (fun t => if t = (("b").data) then Except.error () else Except.ok ())
      [((("cat").data), [docTextB, docTextG])] = Except.error () := by rfl

theorem assocFind_mem {V : Type} :
    ∀ (l : List (List Char × V)) (k : List Char) (v : V),
      assocFind l k = some v → (k, v) ∈ l := by
  intro l
  induction l with
  | nil => intro k v h; simp [assocFind] at h
  | cons p t ih =>
    intro k v h
    obtain ⟨pk, pv⟩ := p
    by_cases hk : pk = k
    · subst hk
      simp [assocFind] at h
      simp [h]
    · rw [assocFind, if_neg hk] at h
      exact List.mem_cons_of_mem _ (ih k v h)

theorem assocSet_mem {V : Type} :
    ∀ (l : List (List Char × V)) (k : List Char) (v : V) (x : List Char × V),
      x ∈ assocSet l k v → x ∈ l ∨ x = (k, v) := by
  intro l
  induction l with
  | nil => intro k v x h; simp [assocSet] at h; simp [h]
  | cons p t ih =>
    intro k v x h
    obtain ⟨pk, pv⟩ := p
    by_cases hk : pk = k
    · subst hk
      rw [assocSet, if_pos rfl] at h
      rcases List.mem_cons.mp h with h' | h'
      · exact Or.inr h'
      · exact Or.inl (List.mem_cons_of_mem _ h')
    · rw [assocSet, if_neg hk] at h
      rcases List.mem_cons.mp h with h' | h'
      · exact Or.inl (h' ▸ List.mem_cons_self _ _)
      · rcases ih k v x h' with h'' | h''
        · exact Or.inl (List.mem_cons_of_mem _ h'')
        · exact Or.inr h''

/-- Texts present in a cache fragment all encode successfully. -/
def innerOK {V : Type} (encode : List Char → Except Unit V)
    (inner : List (List Char × V)) : Prop :=
  ∀ e ∈ inner, ∃ v, encode e.1 = Except.ok v

theorem addDocFold_ok {V : Type} {encode : List Char → Except Unit V} :
    ∀ (docs : List Doc) (inner0 inner1 : List (List Char × V)),
      docs.foldlM (addDocEmb encode) inner0 = Except.ok inner1 →
      innerOK encode inner0 →
      (∀ d ∈ docs, ∃ v, encode d.text = Except.ok v) ∧
        innerOK encode inner1 := by
  intro docs
  induction docs with
  | nil =>
    intro inner0 inner1 h h0
    rw [List.foldlM_nil] at h
    injection h with h'
    exact ⟨by simp, h' ▸ h0⟩
  | cons d ds ih =>
    intro inner0 inner1 h h0
    rw [List.foldlM_cons] at h
    by_cases hc : inner0.any (fun p => decide (p.1 = d.text)) = true
    · have hd : ∃ v, encode d.text = Except.ok v := by
        rcases List.any_eq_true.mp hc with ⟨p, hp, hpt⟩
        rcases h0 p hp with ⟨v, hv⟩
        exact ⟨v, by rwa [of_decide_eq_true hpt] at hv⟩
      rw [addDocEmb, if_pos hc] at h
      rcases ih inner0 inner1 h h0 with ⟨hds, h1⟩
      refine ⟨?_, h1⟩
      intro d' hd'
      rcases List.mem_cons.mp hd' with h' | h'
      · exact h' ▸ hd
      · exact hds d' h'
    · rw [addDocEmb, if_neg hc] at h
      cases he : encode d.text with
      | error e =>
        rw [he] at h
        exact Except.noConfusion h
      | ok v =>
        rw [he] at h
        have h0' : innerOK encode (inner0 ++ [(d.text, v)]) := by
          intro e he'
          rcases List.mem_append.mp he' with h' | h'
          · exact h0 e h'
          · rw [List.mem_singleton.mp h']
            exact ⟨v, he⟩
        rcases ih _ inner1 h h0' with ⟨hds, h1⟩
        refine ⟨?_, h1⟩
        intro d' hd'
        rcases List.mem_cons.mp hd' with h' | h'
        · exact h' ▸ ⟨v, he⟩
        · exact hds d' h'

/-- Cache-wide version of `innerOK`. -/
def cacheOK {V : Type} (encode : List Char → Except Unit V)
    (cache : List (List Char × List (List Char × V))) : Prop :=
  ∀ ci ∈ cache, innerOK encode ci.2

/-- Claim C3 (amended): `_create_embeddings` aborts on the first encoder
failure; dually, whenever the build returns a cache, every unit's text of
every category was successfully encodable. -/
theorem claim_C3_amended_abort {V : Type}
    (encode : List Char → Except Unit V) :
    ∀ (kb : List (List Char × List Doc))
      (cache : List (List Char × List (List Char × V))),
      createEmbeddings encode kb = Except.ok cache →
      ∀ p ∈ kb, ∀ d ∈ p.2, ∃ v, encode d.text = Except.ok v := by
  have main : ∀ (kb : List (List Char × List Doc)) cache0 cache1,
      kb.foldlM (fun cache p => do
        let inner ← p.2.foldlM (addDocEmb encode) ((assocFind cache p.1).getD [])
        Except.ok (assocSet cache p.1 inner)) cache0 = Except.ok cache1 →
      cacheOK encode cache0 →
      ∀ p ∈ kb, ∀ d ∈ p.2, ∃ v, encode d.text = Except.ok v := by
    intro kb
    induction kb with
    | nil => intro cache0 cache1 _ _ p hp; simp at hp
    | cons q qs ih =>
      intro cache0 cache1 h h0
      rw [List.foldlM_cons] at h
      cases hf : q.2.foldlM (addDocEmb encode) ((assocFind cache0 q.1).getD []) with
      | error e =>
        rw [hf] at h
        exact fun p hp => Except.noConfusion h
      | ok inner1 =>
        have hin0 : innerOK encode ((assocFind cache0 q.1).getD []) := by
          cases haf : assocFind cache0 q.1 with
          | none => intro e he; simp [haf] at he
          | some i =>
            intro e he
            exact h0 (q.1, i) (assocFind_mem _ _ _ haf) e (by simpa [haf] using he)
        rcases addDocFold_ok q.2 _ inner1 hf hin0 with ⟨hq, hin1⟩
        rw [hf] at h
        have h0' : cacheOK encode (assocSet cache0 q.1 inner1) := by
          intro ci hci
          rcases assocSet_mem _ _ _ _ hci with h' | h'
          · exact h0 ci h'
          · rw [h']; exact hin1
        intro p hp
        rcases List.mem_cons.mp hp with h' | h'
        · exact h' ▸ hq
        · exact ih _ cache1 h h0' p h'
  intro kb cache h
  exact main kb [] cache h (by intro ci hci; simp at hci)

theorem claim_C3_amended_abort_witness :
    ∃ v : Unit,
      (fun _ : List Char => (Except.ok () : Except Unit Unit)) docTextG.text =
        Except.ok v :=
  claim_C3_amended_abort (fun _ => Except.ok ())
    [((("cat").data), [docTextG])] [((("cat").data), [((("g").data), ())])]
    (by rfl) ((("cat").data), [docTextG]) (by decide) docTextG (by decide)

/-! ## Relevance ranking (`_get_relevant_documents`,
src/ai/rag_handler.py:189-293)

The query embedding, the cosine similarity against the cached document
embeddings and the per-document Gaussian jitter are opaque inputs and enter
as the parameters `baseSim` and `jit`.  The call `self._extract_age_info`
on line 201 is bound to the module's `extract_age_info` (the evident intent;
the name-resolution failure of the code as written is the subject of claim
C1 and modelled separately below). -/

/-- Python's whitespace `str.split()`. -/
def splitWords (l : List Char) : List (List Char) :=
  (l.foldr (fun c acc =>
    if isSpaceChar c then [] :: acc
    else
      match acc with
      | [] => [[c]]
      | w :: ws => (c :: w) :: ws) []).filter (fun w => !w.isEmpty)

def priceWords : List (List Char) :=
  [("руб").data, ("рублей").data, ("стоит").data, ("цена").data,
   ("стоимость").data]

def reqWords : List (List Char) :=
  [("требуется").data, ("необходимо").data, ("нужно").data,
   ("обязательно").data]

def containsAnyWord (t : List Char) (ws : List (List Char)) : Bool :=
  ws.any (fun w => hasSub t w)

/-- Composite score of one candidate (src/ai/rag_handler.py:215-274):
cosine base, keyword-overlap bonus, age adjustment, answer-length
heuristic, price/requirement cues, jitter factor. -/
def scoreDoc (base jit : ℚ) (qAge : AgeInfo) (qKeywords : List (List Char))
    (d : Doc) : ℚ :=
  let km := (qKeywords.filter (fun w => w ∈ splitWords (normalizeText d.text))).length
  let s1 := if 0 < km then base * (1 + (km : ℚ) * (1/10)) else base
  let s2 := ageAdjust qAge d.ageInfo s1
  let s3 :=
    if 200 < d.answer.length then s2 * (6/5)
    else if d.answer.length < 50 then s2 * (4/5) else s2
  let s4 := if containsAnyWord (lowerPy d.text) priceWords then s3 * (11/10) else s3
  let s5 := if containsAnyWord (lowerPy d.text) reqWords then s4 * (11/10) else s4
  s5 * (1 + jit)

/-- The deduplicating walk over the score-sorted candidates
(src/ai/rag_handler.py:282-293): keep the first occurrence of each distinct
answer; after each iteration stop once `top_k` are kept. -/
def dedupLoop (topK : Nat) (seen : List (List Char)) (acc : List Doc) :
    List Doc → List Doc
  | [] => acc
  | d :: ds =>
    if d.answer ∈ seen then
      if topK ≤ acc.length then acc else dedupLoop topK seen acc ds
    else
      if topK ≤ (acc ++ [d]).length then acc ++ [d]
      else dedupLoop topK (d.answer :: seen) (acc ++ [d]) ds

/-- `_get_relevant_documents` (src/ai/rag_handler.py:189-293): score every
document of every category, sort by score descending (Python's stable
`sorted` with `reverse=True`), then deduplicate by answer up to `top_k`. -/
def getRelevantDocuments (baseSim : List Char → List Char → ℚ)
    (jit : Nat → ℚ) (kb : List (List Char × List Doc)) (query : List Char)
    (topK : Nat) : List Doc :=
  let qAge := extractAgeInfo query
  let qKeywords := (splitWords (normalizeText query)).dedup
  let allDocs := (kb.map Prod.snd).join
  let scored := allDocs.enum.map
    (fun p => (scoreDoc (baseSim query p.2.text) (jit p.1) qAge qKeywords p.2, p.2))
  let sorted := scored.mergeSort (fun a b => decide (b.1 ≤ a.1))
  dedupLoop topK [] [] (sorted.map Prod.snd)

theorem dedupLoop_length {topK : Nat} :
    ∀ (l : List Doc) (seen : List (List Char)) (acc : List Doc),
      acc.length < topK →
      (dedupLoop topK seen acc l).length =
        min topK (acc.length +
          ((l.map Doc.answer).toFinset \ seen.toFinset).card) := by
  intro l
  induction l with
  | nil =>
    intro seen acc hlt
    simp only [dedupLoop, List.map_nil, List.toFinset_nil, Finset.empty_sdiff,
      Finset.card_empty, Nat.add_zero]
    exact (Nat.min_eq_right (Nat.le_of_lt hlt)).symm
  | cons d ds ih =>
    intro seen acc hlt
    rw [dedupLoop]
    by_cases hs : d.answer ∈ seen
    · rw [if_pos hs, if_neg (Nat.not_le_of_lt hlt), ih seen acc hlt]
      have : (((d :: ds).map Doc.answer).toFinset : Finset (List Char)) \ seen.toFinset =
          (ds.map Doc.answer).toFinset \ seen.toFinset := by
        simp only [List.map_cons, List.toFinset_cons]
        exact Finset.insert_sdiff_of_mem _ (List.mem_toFinset.mpr hs)
      rw [this]
    · rw [if_neg hs]
      have hsd : (((d :: ds).map Doc.answer).toFinset : Finset (List Char)) \ seen.toFinset =
          insert d.answer ((ds.map Doc.answer).toFinset \ seen.toFinset) := by
        simp only [List.map_cons, List.toFinset_cons]
        exact Finset.insert_sdiff_of_not_mem _ (fun hc => hs (List.mem_toFinset.mp hc))
      have hins : (insert d.answer
          ((ds.map Doc.answer).toFinset \ seen.toFinset)).card =
          ((ds.map Doc.answer).toFinset \ (insert d.answer seen.toFinset)).card + 1 := by
        have h1 : insert d.answer ((ds.map Doc.answer).toFinset \ seen.toFinset) =
            insert d.answer
              (((ds.map Doc.answer).toFinset \ seen.toFinset).erase d.answer) := by
          ext b
          by_cases hb : b = d.answer <;> simp [hb]
        rw [h1, Finset.card_insert_of_not_mem (Finset.not_mem_erase _ _),
          ← Finset.sdiff_insert]
      by_cases hk : topK ≤ (acc ++ [d]).length
      · rw [if_pos hk]
        rw [List.length_append, List.length_singleton] at hk ⊢
        rw [hsd, hins]
        omega
      · rw [if_neg hk]
        rw [ih (d.answer :: seen) (acc ++ [d]) (by omega)]
        rw [hsd, hins, List.length_append, List.length_singleton,
          List.toFinset_cons]
        omega

theorem dedupLoop_nodup {topK : Nat} :
    ∀ (l : List Doc) (seen : List (List Char)) (acc : List Doc),
      ((acc.map Doc.answer).Nodup) →
      (∀ d ∈ acc, d.answer ∈ seen) →
      ((dedupLoop topK seen acc l).map Doc.answer).Nodup := by
  intro l
  induction l with
  | nil => intro seen acc h _; simpa [dedupLoop] using h
  | cons d ds ih =>
    intro seen acc hnd hsub
    rw [dedupLoop]
    by_cases hs : d.answer ∈ seen
    · rw [if_pos hs]
      by_cases hk : topK ≤ acc.length
      · rw [if_pos hk]; exact hnd
      · rw [if_neg hk]; exact ih seen acc hnd hsub
    · rw [if_neg hs]
      have hnd' : ((acc ++ [d]).map Doc.answer).Nodup := by
        rw [List.map_append, List.map_singleton]
        apply List.Nodup.append hnd (List.nodup_singleton _)
        intro a ha hb
        rw [List.mem_singleton.mp hb] at ha
        rcases List.mem_map.mp ha with ⟨d', hd', hda⟩
        exact hs (hda ▸ hsub d' hd')
      have hsub' : ∀ d' ∈ acc ++ [d], d'.answer ∈ d.answer :: seen := by
        intro d' hd'
        rcases List.mem_append.mp hd' with h' | h'
        · exact List.mem_cons_of_mem _ (hsub d' h')
        · rw [List.mem_singleton.mp h']
          exact List.mem_cons_self _ _
      by_cases hk : topK ≤ (acc ++ [d]).length
      · rw [if_pos hk]; exact hnd'
      · rw [if_neg hk]
        exact ih (d.answer :: seen) (acc ++ [d]) hnd' hsub'

/-- Claim C4: for every query, document collection and positive `top_k`,
the ranker returns at most `top_k` units with pairwise distinct answers;
its length is exactly the minimum of `top_k` and the number of distinct
answers, so fewer than `top_k` units come back when fewer distinct answers
exist. -/
theorem claim_C4_rank_dedup_topk (baseSim : List Char → List Char → ℚ)
    (jit : Nat → ℚ) (kb : List (List Char × List Doc)) (query : List Char)
    (topK : Nat) (h : 0 < topK) :
    (getRelevantDocuments baseSim jit kb query topK).length =
      min topK ((((kb.map Prod.snd).join).map Doc.answer).toFinset.card) ∧
    ((getRelevantDocuments baseSim jit kb query topK).map Doc.answer).Nodup := by
  constructor
  · rw [getRelevantDocuments]
    rw [dedupLoop_length _ [] [] (by simpa using h)]
    have hperm :
        ((((kb.map Prod.snd).join).enum.map
            (fun p => (scoreDoc (baseSim query p.2.text) (jit p.1)
              (extractAgeInfo query)
              ((splitWords (normalizeText query)).dedup) p.2, p.2))).mergeSort
          (fun a b => decide (b.1 ≤ a.1))).map Prod.snd
          |>.Perm ((kb.map Prod.snd).join) := by
      have h1 := List.mergeSort_perm
        (((kb.map Prod.snd).join).enum.map
          (fun p => (scoreDoc (baseSim query p.2.text) (jit p.1)
            (extractAgeInfo query)
            ((splitWords (normalizeText query)).dedup) p.2, p.2)))
        (fun a b => decide (b.1 ≤ a.1))
      have h2 := h1.map Prod.snd
      rw [List.map_map] at h2
      have h3 : (((kb.map Prod.snd).join).enum.map
          (Prod.snd ∘ fun p => (scoreDoc (baseSim query p.2.text) (jit p.1)
            (extractAgeInfo query)
            ((splitWords (normalizeText query)).dedup) p.2, p.2))) =
          ((kb.map Prod.snd).join).enum.map Prod.snd := by
        apply List.map_congr_left
        intro a _
        rfl
      rw [h3, List.enum_map_snd] at h2
      exact h2
    rw [List.toFinset_eq_of_perm _ _ (hperm.map Doc.answer)]
    simp [Finset.sdiff_empty]
  · exact dedupLoop_nodup _ [] [] (by simp) (by simp)

theorem claim_C4_rank_dedup_topk_witness :
    (getRelevantDocuments (fun _ _ => 0) (fun _ => 0) [] [] 3).length =
      min 3 ((([] : List Doc).map Doc.answer).toFinset.card) ∧
    ((getRelevantDocuments (fun _ _ => 0) (fun _ => 0) [] [] 3).map
      Doc.answer).Nodup :=
  claim_C4_rank_dedup_topk (fun _ _ => 0) (fun _ => 0) [] [] 3 (by norm_num)

/-! ## Context classification and answer composition
(`_determine_context` src/ai/rag_handler.py:295-337 and `get_rag_response`
src/ai/rag_handler.py:339-507)

As in the ranker, `self._extract_age_info` is bound to the module's
`extract_age_info`.  Python iterates the keyword sets only through `any`,
so their iteration order is irrelevant; the `related_topics` set is
modelled as an insertion-ordered deduplicating list (its Python iteration
order is unspecified and only affects the ordering inside that one
section). -/

structure QueryContext where
  is_school : Bool
  is_kindergarten : Bool
  is_price_query : Bool
  is_schedule_query : Bool
  age_mentioned : Bool
  age_info : AgeInfo

def schoolKw : List (List Char) :=
  [("школа").data, ("класс").data, ("ученик").data, ("школьник").data,
   ("учитель").data, ("урок").data, ("школьный").data]

def kgKw : List (List Char) :=
  [("сад").data, ("садик").data, ("детский сад").data, ("дошкольный").data,
   ("дошкольник").data, ("воспитатель").data, ("группа").data]

def priceCtxKw : List (List Char) :=
  [("цена").data, ("стоимость").data, ("цены").data, ("стоит").data,
   ("оплата").data, ("платить").data, ("рублей").data, ("руб").data]

def scheduleKw : List (List Char) :=
  [("расписание").data, ("график").data, ("режим").data, ("время").data,
   ("занятия").data, ("распорядок").data]

/-- `_determine_context` (src/ai/rag_handler.py:295-337). -/
def determineContext (q : List Char) : QueryContext :=
  let ql := lowerPy q
  let ai := extractAgeInfo q
  { is_school := containsAnyWord ql schoolKw
    is_kindergarten := containsAnyWord ql kgKw
    is_price_query := containsAnyWord ql priceCtxKw
    is_schedule_query := containsAnyWord ql scheduleKw
    age_mentioned := ai.has_age_info
    age_info := ai }

def clarifySchool : List Char :=
  ("В какой класс планируете поступать? Это поможет мне предоставить точную информацию о программе обучения, стоимости и условиях.").data

def clarifyKg : List Char :=
  ("Какой возраст ребенка вас интересует? Это поможет мне рассказать о подходящей группе и программе развития.").data

def clarifyGeneric : List Char :=
  ("Что именно вас интересует - школа или детский сад? Я помогу подобрать оптимальный вариант.").data

def schoolFilterKw : List (List Char) :=
  [("школа").data, ("класс").data, ("ученик").data]

def kgFilterKw : List (List Char) :=
  [("сад").data, ("садик").data, ("группа").data]

/-- Keep a document under the classified context
(src/ai/rag_handler.py:372-382). -/
def keepByContext (ctx : QueryContext) (d : Doc) : Bool :=
  (!ctx.is_school ||
    containsAnyWord (lowerPy (d.question ++ ' ' :: d.answer)) schoolFilterKw) &&
  (!ctx.is_kindergarten ||
    containsAnyWord (lowerPy (d.question ++ ' ' :: d.answer)) kgFilterKw)

def natStr (n : Nat) : List Char := (Nat.repr n).data

/-- Supplementary age line for one document
(src/ai/rag_handler.py:424-435). -/
def ageSpecificLine (d : Doc) : Option (List Char) :=
  if d.ageInfo.has_age_info then
    match d.ageInfo.min_age, d.ageInfo.max_age with
    | some mn, some mx =>
      if mn = mx then
        some ((("Для возраста ").data) ++ natStr mn ++ ((" лет: ").data) ++ d.answer)
      else
        some ((("Для возраста ").data) ++ natStr mn ++ (("-").data) ++ natStr mx ++
          ((" лет: ").data) ++ d.answer)
    | some mn, none =>
      some ((("Для детей старше ").data) ++ natStr mn ++ ((" лет: ").data) ++ d.answer)
    | none, some mx =>
      some ((("Для детей младше ").data) ++ natStr mx ++ ((" лет: ").data) ++ d.answer)
    | none, none => none
  else none

/-- The primary answer with its optional age-qualifier sentence
(src/ai/rag_handler.py:453-469). -/
def mainAnswer (ageMentioned : Bool) (best : Doc) : List Char :=
  if ageMentioned && best.ageInfo.has_age_info then
    match best.ageInfo.min_age, best.ageInfo.max_age with
    | some mn, some mx =>
      if mn = mx then
        (("Для возраста ").data) ++ natStr mn ++ ((" лет:\n").data) ++ best.answer
      else
        (("Для возраста ").data) ++ natStr mn ++ (("-").data) ++ natStr mx ++
          ((" лет:\n").data) ++ best.answer
    | some mn, none =>
      (("Для детей старше ").data) ++ natStr mn ++ ((" лет:\n").data) ++ best.answer
    | none, some mx =>
      (("Для детей младше ").data) ++ natStr mx ++ ((" лет:\n").data) ++ best.answer
    | none, none => best.answer
  else best.answer

/-- Clarifying questions (src/ai/rag_handler.py:403-417); the
`grade_mentioned` key is never set, so its `.get` defaults to `False` and
the grade question is always asked in the school branch. -/
def clarifyingQuestions (ctx : QueryContext)
    (hasPricing hasProgram hasSchedule : Bool) : List (List Char) :=
  if ctx.is_school then
    [("В какой класс планируете поступать?").data] ++
    (if !hasPricing && !ctx.is_price_query then
      [("Хотите узнать подробнее о стоимости обучения?").data] else []) ++
    (if !hasProgram then
      [("Интересует ли вас информация о программе обучения и дополнительных занятиях?").data]
      else [])
  else if ctx.is_kindergarten then
    (if !ctx.age_mentioned then
      [("Какой возраст ребенка вас интересует?").data] else []) ++
    (if !hasPricing && !ctx.is_price_query then
      [("Хотите узнать подробнее о стоимости посещения?").data] else []) ++
    (if !hasSchedule then
      [("Интересует ли вас режим работы и расписание занятий?").data] else [])
  else []

def insertTopic (ts : List (List Char)) (t : List Char) : List (List Char) :=
  if t ∈ ts then ts else ts ++ [t]

/-- `'\n'.join`. -/
def joinChar (c : Char) : List (List Char) → List Char
  | [] => []
  | [x] => x
  | x :: rest => x ++ c :: joinChar c rest

/-- The supplementary sections of the composed answer
(src/ai/rag_handler.py:388-417 and 419-502): clarifying questions from the
context and coverage flags over `fd`, and the age/pricing/requirement/
detail/topic blocks accumulated from `rest = filtered_docs[1:]`, in the
fixed section order, each with its header and omitted when empty. -/
def composeSections (ctx : QueryContext) (fd rest : List Doc) :
    List (List Char) :=
  let hasPricing := fd.any (fun d =>
    hasSub (lowerPy d.answer) (("стоимость").data) ||
    hasSub (lowerPy d.answer) (("цена").data))
  let hasProgram := fd.any (fun d =>
    hasSub (lowerPy d.answer) (("программа").data) ||
    hasSub (lowerPy d.answer) (("занятия").data))
  let hasSchedule := fd.any (fun d =>
    hasSub (lowerPy d.answer) (("расписание").data) ||
    hasSub (lowerPy d.answer) (("график").data))
  let clarifying := clarifyingQuestions ctx hasPricing hasProgram hasSchedule
  let ageSpec := if ctx.age_mentioned then rest.filterMap ageSpecificLine else []
  let pricing :=
    if ctx.is_price_query then
      (rest.filter (fun d =>
        containsAnyWord (lowerPy (d.question ++ ' ' :: d.answer)) priceWords)).map
        Doc.answer
    else []
  let reqs := (rest.filter (fun d =>
    containsAnyWord (lowerPy (d.question ++ ' ' :: d.answer)) reqWords)).map
    Doc.answer
  let topics := rest.foldl
    (fun ts d => if d.context.isEmpty then ts else insertTopic ts d.context) []
  let details := (rest.filter (fun d => 50 < d.answer.length)).map Doc.answer
  (if ctx.age_mentioned ∧ ageSpec ≠ [] then
    (("\nДополнительная информация по возрастам:").data) :: ageSpec else []) ++
  (if ctx.is_price_query ∧ pricing ≠ [] then
    (("\nИнформация о стоимости:").data) :: pricing else []) ++
  (if reqs ≠ [] then (("\nВажные требования:").data) :: reqs else []) ++
  (if details ≠ [] then
    (("\nДополнительная информация:").data) :: details else []) ++
  (if topics ≠ [] then (("\nСвязанные темы:").data) :: topics else []) ++
  (if clarifying ≠ [] then
    (("\nЧтобы предоставить более точную информацию, ответьте, пожалуйста:").data) ::
      clarifying else [])

/-- Composition part of `get_rag_response`
(src/ai/rag_handler.py:362-507), taking the ranked documents as input:
clarifying fallback on an empty result, context filter with fallback to the
unfiltered list, then the primary answer followed by the supplementary
sections, `'\n'`-joined. -/
def composeFrom (ctx : QueryContext) (rel : List Doc) :
    Option (List Char) × List Doc :=
  match rel with
  | [] =>
    if ctx.is_school then (some clarifySchool, [])
    else if ctx.is_kindergarten then (some clarifyKg, [])
    else (some clarifyGeneric, [])
  | r :: rs =>
    let filtered := (r :: rs).filter (keepByContext ctx)
    let fd := if filtered.isEmpty then r :: rs else filtered
    let best := fd.headD r
    (some (joinChar '\n'
      (mainAnswer ctx.age_mentioned best :: composeSections ctx fd fd.tail)), fd)

/-- `get_rag_response` (src/ai/rag_handler.py:339-507): classify, build the
context-prefixed search query, rank with `top_k = 5`, compose. -/
def getRagResponse (baseSim : List Char → List Char → ℚ) (jit : Nat → ℚ)
    (kb : List (List Char × List Doc)) (query : List Char) :
    Option (List Char) × List Doc :=
  let ctx := determineContext query
  let searchQ :=
    if ctx.is_school then (("школа ").data) ++ query
    else if ctx.is_kindergarten then (("детский сад ").data) ++ query
    else query
  composeFrom ctx (getRelevantDocuments baseSim jit kb searchQ 5)

/-! ## The singleton variant (src/ai/rag_singleton.py)

`RAGSingleton._get_relevant_documents` (lines 121-146) computes one cosine
score per document (no keyword/age/length heuristics and no jitter) and
returns the top 3; `RAGSingleton.get_rag_response` (lines 109-119) returns
`(None, [])` exactly when no documents come back, else the best answer.
The BERT embedding and cosine similarity enter as the parameter `sim`. -/

def singletonGetRelevantDocuments (sim : List Char → ℚ) (docs : List Doc)
    (topK : Nat) : List Doc :=
  (((docs.map (fun d => (sim d.text, d))).mergeSort
    (fun a b => decide (b.1 ≤ a.1))).map Prod.snd).take topK

def singletonGetRagResponse (sim : List Char → ℚ) (docs : List Doc) :
    Option (List Char) × List Doc :=
  match singletonGetRelevantDocuments sim docs 3 with
  | [] => (none, [])
  | best :: others => (some best.answer, best :: others)

/-- Counterexample to claim C2 as stated against
`RAGHandler.get_rag_response`: with an empty index and the query
`"anything"` the handler does not return `(null, [])` — it returns the
fixed generic clarifying question together with the empty list. -/
theorem claim_C2_counterexample :
    getRagResponse (fun _ _ => 0) (fun _ => 0) [] (("anything").data) =
      (some clarifyGeneric, []) ∧
    (getRagResponse (fun _ _ => 0) (fun _ => 0) [] (("anything").data)).1 ≠
      none := by
  have hs : (determineContext (("anything").data)).is_school = false := by decide
  have hk : (determineContext (("anything").data)).is_kindergarten = false := by
    decide
  have hrel : ∀ q : List Char,
      getRelevantDocuments (fun _ _ => 0) (fun _ => 0) [] q 5 = [] := by
    intro q
    simp [getRelevantDocuments, dedupLoop]
  have heq : getRagResponse (fun _ _ => 0) (fun _ => 0) [] (("anything").data) =
      (some clarifyGeneric, []) := by
    rw [getRagResponse]
    simp only [hs, hk, Bool.false_eq_true, if_false]
    rw [hrel]
    simp [composeFrom, hs, hk]
  exact ⟨heq, by rw [heq]; simp⟩

/-- Claim C2 (amended): the null-iff-empty contract holds for the singleton
variant: `RAGSingleton.get_rag_response` returns a null answer with an empty
used-units list exactly when the knowledge base holds zero documents, and
for every non-empty knowledge base it returns the best unit's answer
(non-null) together with the non-empty ranked list.
`RAGHandler.get_rag_response` never returns a null answer for any index and
query: its compose step always produces either a clarifying question or a
composed string. -/
theorem claim_C2_amended_null_iff_empty :
    (∀ (sim : List Char → ℚ) (docs : List Doc),
      ((singletonGetRagResponse sim docs).1 = none ∧
        (singletonGetRagResponse sim docs).2 = []) ↔ docs = []) ∧
    (∀ (sim : List Char → ℚ) (docs : List Doc), docs ≠ [] →
      ∃ (best : Doc) (others : List Doc),
        singletonGetRelevantDocuments sim docs 3 = best :: others ∧
        singletonGetRagResponse sim docs =
          (some best.answer, best :: others)) ∧
    (∀ (baseSim : List Char → List Char → ℚ) (jit : Nat → ℚ)
        (kb : List (List Char × List Doc)) (query : List Char),
      (getRagResponse baseSim jit kb query).1 ≠ none) := by
  have hlen : ∀ (sim : List Char → ℚ) (docs : List Doc),
      (singletonGetRelevantDocuments sim docs 3).length = min 3 docs.length := by
    intro sim docs
    rw [singletonGetRelevantDocuments, List.length_take, List.length_map,
      List.length_mergeSort, List.length_map]
  refine ⟨?_, ?_, ?_⟩
  · intro sim docs
    constructor
    · intro ⟨h1, _⟩
      by_contra hne
      cases hrel : singletonGetRelevantDocuments sim docs 3 with
      | nil =>
        have h0 := hlen sim docs
        rw [hrel] at h0
        have hpos := List.length_pos.mpr hne
        simp only [List.length_nil] at h0
        omega
      | cons b bs =>
        rw [singletonGetRagResponse, hrel] at h1
        simp at h1
    · intro h
      subst h
      have hrel : singletonGetRelevantDocuments sim [] 3 = [] := by
        simp [singletonGetRelevantDocuments]
      rw [singletonGetRagResponse, hrel]
      exact ⟨rfl, rfl⟩
  · intro sim docs hne
    cases hrel : singletonGetRelevantDocuments sim docs 3 with
    | nil =>
      have h0 := hlen sim docs
      rw [hrel] at h0
      have hpos := List.length_pos.mpr hne
      simp only [List.length_nil] at h0
      omega
    | cons b bs =>
      exact ⟨b, bs, rfl, by rw [singletonGetRagResponse, hrel]⟩
  · have hcompose : ∀ (ctx : QueryContext) (rel : List Doc),
        (composeFrom ctx rel).1 ≠ none := by
      intro ctx rel
      cases rel with
      | nil =>
        rw [composeFrom]
        by_cases h1 : ctx.is_school = true
        · simp [h1]
        · by_cases h2 : ctx.is_kindergarten = true <;> simp [h1, h2]
      | cons r rs => simp [composeFrom]
    intro baseSim jit kb query
    rw [getRagResponse]
    exact hcompose _ _

theorem claim_C2_amended_null_iff_empty_witness :
    (((singletonGetRagResponse (fun _ => 0) []).1 = none ∧
      (singletonGetRagResponse (fun _ => 0) []).2 = []) ↔ ([] : List Doc) = []) ∧
    (∃ (best : Doc) (others : List Doc),
      singletonGetRelevantDocuments (fun _ => 0) [docTextG] 3 = best :: others ∧
      singletonGetRagResponse (fun _ => 0) [docTextG] =
        (some best.answer, best :: others)) ∧
    (getRagResponse (fun _ _ => 0) (fun _ => 0) [] (("сколько стоит?").data)).1 ≠
      none :=
  ⟨claim_C2_amended_null_iff_empty.1 (fun _ => 0) [],
   claim_C2_amended_null_iff_empty.2.1 (fun _ => 0) [docTextG] (by simp),
   claim_C2_amended_null_iff_empty.2.2 (fun _ _ => 0) (fun _ => 0) []
     (("сколько стоит?").data)⟩

/-- Claim C8: the composed answer's primary section is the first filtered
unit's answer prefixed with an age qualifier only when the query mentioned
an age and that unit carries age info; with no age mention in the query the
primary section is exactly the unit's unmodified answer. -/
theorem claim_C8_no_age_injection :
    (∀ best : Doc, mainAnswer false best = best.answer) ∧
    (∀ (am : Bool) (best : Doc), mainAnswer am best ≠ best.answer →
      am = true ∧ best.ageInfo.has_age_info = true) ∧
    (∀ (ctx : QueryContext) (r : Doc) (rs : List Doc),
      ∃ (best : Doc) (rest : List Doc) (tail : List Char),
        composeFrom ctx (r :: rs) =
          (some (mainAnswer ctx.age_mentioned best ++ tail), best :: rest)) := by
  refine ⟨?_, ?_, ?_⟩
  · intro best
    simp [mainAnswer]
  · intro am best h
    cases am with
    | false => exact absurd (by simp [mainAnswer]) h
    | true =>
      refine ⟨rfl, ?_⟩
      by_contra hb
      exact h (by simp [mainAnswer, Bool.eq_false_iff.mpr hb])
  · intro ctx r rs
    have hjoin : ∀ (x : List Char) (xs : List (List Char)),
        ∃ t, joinChar '\n' (x :: xs) = x ++ t := by
      intro x xs
      cases xs with
      | nil => exact ⟨[], by simp [joinChar]⟩
      | cons y ys => exact ⟨'\n' :: joinChar '\n' (y :: ys), rfl⟩
    rw [composeFrom]
    cases hf : (r :: rs).filter (keepByContext ctx) with
    | nil =>
      simp only [hf, List.isEmpty_nil, if_pos, List.headD_cons, List.tail_cons]
      rcases hjoin (mainAnswer ctx.age_mentioned r)
        (composeSections ctx (r :: rs) rs) with ⟨t, ht⟩
      exact ⟨r, rs, t, by rw [ht]⟩
    | cons f fs =>
      simp only [hf, List.isEmpty_cons, Bool.false_eq_true, if_false,
        List.headD_cons, List.tail_cons]
      rcases hjoin (mainAnswer ctx.age_mentioned f)
        (composeSections ctx (f :: fs) fs) with ⟨t, ht⟩
      exact ⟨f, fs, t, by rw [ht]⟩

theorem claim_C8_no_age_injection_witness :
    mainAnswer false docTextG = docTextG.answer ∧
    (∃ (best : Doc) (rest : List Doc) (tail : List Char),
      composeFrom (determineContext (("привет").data)) [docTextG] =
        (some (mainAnswer (determineContext (("привет").data)).age_mentioned
          best ++ tail), best :: rest)) :=
  ⟨claim_C8_no_age_injection.1 docTextG,
   claim_C8_no_age_injection.2.2 (determineContext (("привет").data)) docTextG []⟩

/-! ## Name resolution of `self._extract_age_info` (claim C1)

Python resolves `self._extract_age_info` dynamically at call time against
the instance's attributes and the class body.  The tables below are
transcribed from `class RAGHandler` (src/ai/rag_handler.py): the `def`s of
the class body and the attributes assigned in `__init__`.  The age
extractor exists only as the local function `extract_age_info` inside
`_flatten_knowledge` (line 68) and is not an attribute; no other module
defines or monkey-patches `_extract_age_info` (its only occurrences in the
repository are the two call sites, lines 201 and 333). -/

/-- Methods defined in the body of `class RAGHandler`. -/
def ragHandlerMethods : List String :=
  ["__init__", "_load_knowledge_base", "_flatten_knowledge",
   "_create_embeddings", "_get_relevant_documents", "_determine_context",
   "get_rag_response", "_is_similar_question", "_normalize_text"]

/-- Instance attributes assigned in `RAGHandler.__init__`
(src/ai/rag_handler.py:22-33). -/
def ragHandlerInstanceAttrs : List String :=
  ["logger", "knowledge_base_dir", "model", "embeddings_cache",
   "knowledge_base"]

/-- Attribute lookup on a `RAGHandler` instance. -/
def ragHandlerHasAttr (n : String) : Bool :=
  ragHandlerInstanceAttrs.contains n || ragHandlerMethods.contains n

inductive PyAttrError where
  | attributeError : String → PyAttrError
deriving DecidableEq

/-- Outcome of running `_get_relevant_documents`: the raised error or the
returned list, together with how many candidates were scored before the
function returned. -/
structure RankerRun where
  result : Except PyAttrError (List Doc)
  scoredCandidates : Nat

/-- `_get_relevant_documents` as written (src/ai/rag_handler.py:189-293):
line 200 encodes the query (an opaque step that succeeds), line 201 looks
up `self._extract_age_info` — before the scoring loop over the candidates
(lines 210-277) is entered. -/
def getRelevantDocumentsRun (baseSim : List Char → List Char → ℚ)
    (jit : Nat → ℚ) (kb : List (List Char × List Doc)) (query : List Char)
    (topK : Nat) : RankerRun :=
  if ragHandlerHasAttr "_extract_age_info" then
    ⟨Except.ok (getRelevantDocuments baseSim jit kb query topK),
     ((kb.map Prod.snd).join).length⟩
  else ⟨Except.error (.attributeError "_extract_age_info"), 0⟩

/-- `_determine_context` as written (src/ai/rag_handler.py:295-337): the
four keyword flags of lines 317-330 are computed into the local dict, then
line 333 looks up `self._extract_age_info`; on failure the exception
propagates and no `QueryContext` is ever produced. -/
def determineContextRun (query : List Char) : Except PyAttrError QueryContext :=
  let ql := lowerPy query
  let isSchool := containsAnyWord ql schoolKw
  let isKg := containsAnyWord ql kgKw
  let isPrice := containsAnyWord ql priceCtxKw
  let isSched := containsAnyWord ql scheduleKw
  if ragHandlerHasAttr "_extract_age_info" then
    Except.ok ⟨isSchool, isKg, isPrice, isSched,
      (extractAgeInfo query).has_age_info, extractAgeInfo query⟩
  else Except.error (.attributeError "_extract_age_info")

/-- `get_rag_response` as written (src/ai/rag_handler.py:339-507): it
first calls `_determine_context` (line 350), so that call's exception
propagates out of the whole response. -/
def getRagResponseRun (baseSim : List Char → List Char → ℚ) (jit : Nat → ℚ)
    (kb : List (List Char × List Doc)) (query : List Char) :
    Except PyAttrError (Option (List Char) × List Doc) :=
  match determineContextRun query with
  | Except.error e => Except.error e
  | Except.ok ctx =>
    let searchQ :=
      if ctx.is_school then (("школа ").data) ++ query
      else if ctx.is_kindergarten then (("детский сад ").data) ++ query
      else query
    match (getRelevantDocumentsRun baseSim jit kb searchQ 5).result with
    | Except.error e => Except.error e
    | Except.ok rel => Except.ok (composeFrom ctx rel)

/-- Claim C1: `_extract_age_info` is not an attribute of `RAGHandler`, so
for every query `_get_relevant_documents` raises an attribute-lookup error
with zero candidates scored, `_determine_context` raises without producing
a context, and `get_rag_response`, which calls both, raises as well. -/
theorem claim_C1_missing_extract_age_info
    (baseSim : List Char → List Char → ℚ) (jit : Nat → ℚ)
    (kb : List (List Char × List Doc)) (query : List Char) (topK : Nat) :
    ragHandlerHasAttr "_extract_age_info" = false ∧
    getRelevantDocumentsRun baseSim jit kb query topK =
      ⟨Except.error (.attributeError "_extract_age_info"), 0⟩ ∧
    determineContextRun query =
      Except.error (.attributeError "_extract_age_info") ∧
    getRagResponseRun baseSim jit kb query =
      Except.error (.attributeError "_extract_age_info") := by
  have hattr : ragHandlerHasAttr "_extract_age_info" = false := by decide
  refine ⟨hattr, ?_, ?_, ?_⟩
  · rw [getRelevantDocumentsRun, hattr]
    simp
  · rw [determineContextRun]
    rw [hattr]
    simp
  · rw [getRagResponseRun, determineContextRun, hattr]
    simp

end Rag
